import Mathlib

/-!
# vault-manager, package `policies-mapping`

A shallow embedding of `toplevel/policies-mapping/policies-mapping.go`:
the `entry` record with `Key` and `Equals`, the discovery loop of
`config.Apply`, the apply-or-report branch, `writeEntiry` and `deleteEntity`.

Go strings are modelled by `String`. The path separator `/` is a single byte
that never occurs inside a multi-byte UTF-8 sequence, so splitting a path into
characters or into bytes gives the same segments.

The Vault client is a record of functions over an abstract server state; every
client call the program makes is recorded, in order, in a trace of events.
-/

set_option autoImplicit false

namespace PoliciesMapping

/-! ## Go standard library: `strings.Join`, `filepath.Clean`, `filepath.Join` (Unix) -/

/-- Go `strings.Join(elems, sep)`. -/
def stringsJoin : List String → String → String
  | [], _ => ""
  | [s], _ => s
  | s :: rest, sep => s ++ sep ++ stringsJoin rest sep

/-- The path elements of a path: the runs between separators, empty ones included. -/
def splitSep : List Char → List (List Char)
  | [] => [[]]
  | c :: cs =>
    if c = '/' then [] :: splitSep cs
    else match splitSep cs with
      | [] => [[c]]
      | seg :: rest => (c :: seg) :: rest

/-- One iteration of the loop of Go `filepath.Clean`, on whole path elements; `acc` is the
output buffer as a stack of elements, last written first. An empty element and `.` are skipped;
`..` removes the last written element when there is one that is not itself a leading `..`,
is dropped at the root of a rooted path, and is kept otherwise; any other element is written. -/
def cleanStep (rooted : Bool) (acc : List (List Char)) (seg : List Char) : List (List Char) :=
  if seg = [] then acc
  else if seg = ['.'] then acc
  else if seg = ['.', '.'] then
    match acc with
    | [] => if rooted then [] else [seg]
    | top :: rest => if top = ['.', '.'] then seg :: acc else rest
  else seg :: acc

/-- The elements written by `Clean`, joined by single separators. -/
def joinSep : List (List Char) → List Char
  | [] => []
  | [s] => s
  | s :: rest => s ++ '/' :: joinSep rest

/-- The stack of path elements `filepath.Clean` has written after reading all of `path`. -/
def cleanStack (rooted : Bool) (path : List Char) : List (List Char) :=
  (splitSep path).foldl (cleanStep rooted) []

/-- Go `filepath.Clean` on Unix. -/
def filepathClean (path : String) : String :=
  if path.data = [] then "."
  else
    let rooted := path.data.head? = some '/'
    let out := (if rooted then ['/'] else []) ++ joinSep (cleanStack rooted path.data).reverse
    if out = [] then "." else String.mk out

/-- Go `filepath.Join` on Unix: leading empty elements are dropped, the rest is joined with
the separator and cleaned; the result is empty when every element is. -/
def filepathJoin (elem : List String) : String :=
  match elem.dropWhile (fun e => e = "") with
  | [] => ""
  | e :: rest => filepathClean (stringsJoin (e :: rest) "/")

/-! ## Dynamic values -/

/-- An element of a Go `[]interface{}`: a string, or a value of any other dynamic type. -/
inductive Elem where
  | str (s : String)
  | other
deriving DecidableEq, Repr

/-- A Go `interface{}` as found in the `Data` map of a Vault secret: `nil` (also the result of
indexing the map at an absent key); a `string`; a value of kind String of another type, such as
the `json.Number` the client decodes numbers to; a `[]interface{}`; a slice of another type;
or a value of a kind that is neither String nor Slice (a bool, a map). -/
inductive Value where
  | nil
  | str (s : String)
  | named (s : String)
  | slice (xs : List Elem)
  | typedSlice
  | other
deriving DecidableEq, Repr

/-- The `Data` field of an `api.Secret`, a `map[string]interface{}`. -/
abbrev SecretData := List (String × Value)

/-- Indexing a Go map: the value stored at the key, `nil` when the key is absent. -/
def SecretData.index (data : SecretData) (key : String) : Value :=
  match data.lookup key with
  | some v => v
  | none => Value.nil

/-! ## Entry model -/

/-- The Go struct `entry`. -/
structure entry where
  EntityName : String
  EntityGroup : String
  AuthType : String
  AuthMount : String
  Policies : String
deriving DecidableEq, Repr

/-- The argument of `Equals`, an `interface{}`: an `entry`, or a value of another type. -/
inductive Iface where
  | ofEntry (e : entry)
  | ofValue (v : Value)
deriving DecidableEq, Repr

/-- Go `entry.Key`. -/
def entry.Key (e : entry) : String :=
  filepathJoin ["/auth", e.AuthMount, e.EntityGroup, e.EntityName]

/-- Go `entry.Equals`. The type assertion `i.(entry)` fails on every other dynamic type. -/
def entry.Equals (e : entry) (i : Iface) : Bool :=
  match i with
  | Iface.ofValue _ => false
  | Iface.ofEntry other =>
    let ePpath := filepathJoin ["/auth", e.AuthMount, e.EntityGroup, e.EntityName]
    let entryPpath := filepathJoin ["/auth", other.AuthMount, other.EntityGroup, other.EntityName]
    ePpath == entryPpath && e.Policies == other.Policies

/-! ## Vault client, events and outcomes -/

/-- The calls of the Vault client used by the package. -/
inductive Call where
  | ListAuth
  | List (path : String)
  | Read (path : String)
  | Write (path : String) (data : SecretData)
  | Delete (path : String)
deriving DecidableEq, Repr

/-- A client call together with whether it returned an error. -/
structure Event where
  call : Call
  failed : Bool
deriving DecidableEq, Repr

/-- Why a run stopped early: `logrus.Fatal` (process exit) or a Go run-time panic. -/
inductive Abort where
  | fatal (msg : String)
  | panic
deriving DecidableEq, Repr

/-- The Vault client over a server state `σ`. `ListAuth` gives the enabled auth backends as
`(mount, backend.Type)` pairs in the order the Go map is iterated; a nil map is `none`.
`List` and `Read` return a possibly nil secret. `Write` and `Delete` return the next server
state and an error, if any. -/
structure Client (σ : Type) where
  ListAuth : σ → Except String (Option (List (String × String)))
  List : σ → String → Except String (Option SecretData)
  Read : σ → String → Except String (Option SecretData)
  Write : σ → String → SecretData → σ × Option String
  Delete : σ → String → σ × Option String

/-- Is this a mutating call? -/
def Call.mutating : Call → Bool
  | Call.Write _ _ => true
  | Call.Delete _ => true
  | _ => false

/-! ## Discovery (lines 54 to 117 of `Apply`) -/

/-- The guard of line 64. -/
def supportedType (t : String) : Bool :=
  t == "github" || t == "ldap" || t == "okta" || t == "radius"

/-- The `switch backend.Type` of lines 67 to 82: `(entityPaths, dataKey)`. -/
def backendTable (t : String) : List String × String :=
  if t = "github" then (["map/teams", "map/users"], "value")
  else if t = "okta" then (["groups", "users"], "policies")
  else if t = "ldap" then (["groups", "users"], "policies")
  else if t = "radius" then (["users"], "policies")
  else ([], "value")

/-- The type assertion `v.(string)` on a slice element. -/
def Elem.asString : Elem → Except Abort String
  | Elem.str s => Except.ok s
  | Elem.other => Except.error Abort.panic

/-- The type assertions `v.(string)` of the loop of lines 105 to 107. -/
def elemsAsStrings : List Elem → Except Abort (List String)
  | [] => Except.ok []
  | v :: rest =>
    match Elem.asString v with
    | Except.error a => Except.error a
    | Except.ok s =>
      match elemsAsStrings rest with
      | Except.error a => Except.error a
      | Except.ok ss => Except.ok (s :: ss)

/-- Lines 99 to 109: the policies string of a policy field. `reflect.TypeOf(nil)` is nil and
calling `Kind` on it panics. In the case `reflect.String` the assertion `.(string)` panics on a
value that is not a `string`; in the case `reflect.Slice` the assertion `.([]interface{})`
panics on a slice of another type and `v.(string)` on an element that is not a string. A kind
that is neither String nor Slice matches no case and leaves `policies` empty. -/
def normalisePolicies (v : Value) : Except Abort String :=
  match v with
  | Value.nil => Except.error Abort.panic
  | Value.str s => Except.ok s
  | Value.named _ => Except.error Abort.panic
  | Value.slice xs =>
    match elemsAsStrings xs with
    | Except.error a => Except.error a
    | Except.ok p => Except.ok (stringsJoin p ",")
  | Value.typedSlice => Except.error Abort.panic
  | Value.other => Except.ok ""

/-- The loop of lines 92 to 112 over the listed entities of one sub-collection. -/
def readEntities {σ : Type} (c : Client σ) (s : σ) (mount kind entityPath dataKey : String) :
    List Elem → List Event × Except Abort (List entry)
  | [] => ([], Except.ok [])
  | Elem.other :: _ => ([], Except.error Abort.panic)
  | Elem.str name :: rest =>
    let path := filepathJoin ["/auth/", mount, entityPath, name]
    match c.Read s path with
    | Except.error msg => ([⟨Call.Read path, true⟩], Except.error (Abort.fatal msg))
    | Except.ok none => ([⟨Call.Read path, false⟩], Except.error Abort.panic)
    | Except.ok (some data) =>
      match normalisePolicies (data.index dataKey) with
      | Except.error a => ([⟨Call.Read path, false⟩], Except.error a)
      | Except.ok policies =>
        match readEntities c s mount kind entityPath dataKey rest with
        | (t, Except.error a) => (⟨Call.Read path, false⟩ :: t, Except.error a)
        | (t, Except.ok es) =>
          (⟨Call.Read path, false⟩ :: t,
            Except.ok (⟨name, entityPath, kind, mount, policies⟩ :: es))

/-- The type assertion `entitiesList.Data["keys"].([]interface{})`. -/
def keysOf (data : SecretData) : Except Abort (List Elem) :=
  match data.index "keys" with
  | Value.slice xs => Except.ok xs
  | _ => Except.error Abort.panic

/-- The loop of lines 84 to 114 over the sub-collections of one backend. -/
def scanEntityPaths {σ : Type} (c : Client σ) (s : σ) (mount kind dataKey : String) :
    List String → List Event × Except Abort (List entry)
  | [] => ([], Except.ok [])
  | entityPath :: rest =>
    let path := filepathJoin ["/auth", mount, entityPath]
    match c.List s path with
    | Except.error msg => ([⟨Call.List path, true⟩], Except.error (Abort.fatal msg))
    | Except.ok entitiesList =>
      let here : List Event × Except Abort (List entry) :=
        match entitiesList with
        | none => ([], Except.ok [])
        | some data =>
          match keysOf data with
          | Except.error a => ([], Except.error a)
          | Except.ok keys => readEntities c s mount kind entityPath dataKey keys
      match here with
      | (t, Except.error a) => (⟨Call.List path, false⟩ :: t, Except.error a)
      | (t, Except.ok es) =>
        match scanEntityPaths c s mount kind dataKey rest with
        | (t2, Except.error a) => (⟨Call.List path, false⟩ :: t ++ t2, Except.error a)
        | (t2, Except.ok es2) => (⟨Call.List path, false⟩ :: t ++ t2, Except.ok (es ++ es2))

/-- The loop of lines 63 to 116 over the enabled backends. -/
def scanMounts {σ : Type} (c : Client σ) (s : σ) :
    List (String × String) → List Event × Except Abort (List entry)
  | [] => ([], Except.ok [])
  | (mount, kind) :: rest =>
    let here : List Event × Except Abort (List entry) :=
      if supportedType kind then
        scanEntityPaths c s mount kind (backendTable kind).2 (backendTable kind).1
      else ([], Except.ok [])
    match here with
    | (t, Except.error a) => (t, Except.error a)
    | (t, Except.ok es) =>
      match scanMounts c s rest with
      | (t2, Except.error a) => (t ++ t2, Except.error a)
      | (t2, Except.ok es2) => (t ++ t2, Except.ok (es ++ es2))

/-- Lines 54 to 117: the existing entities read from the server, with the calls made. -/
def discover {σ : Type} (c : Client σ) (s : σ) : List Event × Except Abort (List entry) :=
  match c.ListAuth s with
  | Except.error msg => ([⟨Call.ListAuth, true⟩], Except.error (Abort.fatal msg))
  | Except.ok existingAuthMounts =>
    match existingAuthMounts with
    | none => ([⟨Call.ListAuth, false⟩], Except.ok [])
    | some mounts =>
      match scanMounts c s mounts with
      | (t, r) => (⟨Call.ListAuth, false⟩ :: t, r)

/-! ## Apply (lines 119 to 174) -/

/-- The outcome of a run: the server state reached, the client calls made, and why the run
stopped early, if it did. -/
structure Result (σ : Type) where
  state : σ
  trace : List Event
  status : Option Abort

/-- The `switch e.AuthType` of `writeEntiry`. -/
def writeDataKey (authType : String) : String :=
  if authType = "github" then "value"
  else if authType = "okta" then "policies"
  else if authType = "ldap" then "policies"
  else if authType = "radius" then "policies"
  else "value"

/-- The payload `writeEntiry` builds. -/
def writeData (e : entry) : SecretData :=
  [(writeDataKey e.AuthType, Value.str e.Policies)]

/-- Go `entry.writeEntiry`. -/
def writeEntiry {σ : Type} (c : Client σ) (s : σ) (e : entry) : Result σ :=
  let path := filepathJoin ["/auth", e.AuthMount, e.EntityGroup, e.EntityName]
  let data := writeData e
  match c.Write s path data with
  | (s', some msg) => ⟨s', [⟨Call.Write path data, true⟩], some (Abort.fatal msg)⟩
  | (s', none) => ⟨s', [⟨Call.Write path data, false⟩], none⟩

/-- Go `entry.deleteEntity`. -/
def deleteEntity {σ : Type} (c : Client σ) (s : σ) (e : entry) : Result σ :=
  let path := filepathJoin ["/auth", e.AuthMount, e.EntityGroup, e.EntityName]
  match c.Delete s path with
  | (s', some msg) => ⟨s', [⟨Call.Delete path, true⟩], some (Abort.fatal msg)⟩
  | (s', none) => ⟨s', [⟨Call.Delete path, false⟩], none⟩

/-- A `for` loop whose body is one of the two calls above: it stops at the first abort. -/
def forEach {σ : Type} (body : σ → entry → Result σ) (s : σ) : List entry → Result σ
  | [] => ⟨s, [], none⟩
  | e :: rest =>
    match body s e with
    | ⟨s', t, some a⟩ => ⟨s', t, some a⟩
    | ⟨s', t, none⟩ =>
      match forEach body s' rest with
      | ⟨s'', t2, st⟩ => ⟨s'', t ++ t2, st⟩

/-- Lines 122 to 139: report in a dry run (log lines only), otherwise write then delete. -/
def applyOrReport {σ : Type} (c : Client σ) (s : σ) (dryRun : Bool)
    (toBeWritten toBeDeleted : List entry) : Result σ :=
  if dryRun = true then ⟨s, [], none⟩
  else
    match forEach (writeEntiry c) s toBeWritten with
    | ⟨s', t, some a⟩ => ⟨s', t, some a⟩
    | ⟨s', t, none⟩ =>
      match forEach (deleteEntity c) s' toBeDeleted with
      | ⟨s'', t2, st⟩ => ⟨s'', t ++ t2, st⟩

/-- What `Apply` takes from outside the package: `yaml.Unmarshal` on the configuration bytes
and `vault.DiffItems`, which returns `(toBeWritten, toBeDeleted)`. The items `DiffItems` is
given by `asItems` are entries and the items it returns are typed as entries, so that the
assertions `e.(entry)` of lines 132 and 137 succeed. -/
structure Deps where
  Unmarshal : String → Except String (List entry)
  DiffItems : List entry → List entry → List entry × List entry

/-- Go `config.Apply`. -/
def Apply {σ : Type} (d : Deps) (c : Client σ) (entriesBytes : String) (dryRun : Bool) (s : σ) :
    Result σ :=
  match d.Unmarshal entriesBytes with
  | Except.error msg => ⟨s, [], some (Abort.fatal msg)⟩
  | Except.ok entries =>
    match discover c s with
    | (t, Except.error a) => ⟨s, t, some a⟩
    | (t, Except.ok existingEntities) =>
      match d.DiffItems entries existingEntities with
      | (toBeWritten, toBeDeleted) =>
        match applyOrReport c s dryRun toBeWritten toBeDeleted with
        | ⟨s', t2, st⟩ => ⟨s', t ++ t2, st⟩


/-! ## Vocabulary of the statements -/

/-- A path element that `filepath.Clean` copies to its output: not empty, not `.`, not `..`. -/
def goodSeg (seg : List Char) : Bool :=
  decide (seg ≠ []) && decide (seg ≠ ['.']) && decide (seg ≠ ['.', '.'])

/-- A path component that is non-empty, has no leading, trailing or duplicate separator and no
`.` or `..` element. -/
def cleanComponent (s : String) : Bool :=
  decide (s.data ≠ []) && decide (s.data.head? ≠ some '/') && decide (s.data.getLast? ≠ some '/')
    && decide (¬ ['/', '/'] <:+: s.data)
    && decide (['.'] ∉ splitSep s.data) && decide (['.', '.'] ∉ splitSep s.data)

/-- The string `b` is obtained from `a` by appending separators at the end and repeating
separators that are already there, any number of times. -/
inductive AddsSeparators : List Char → List Char → Prop where
  | same (a : List Char) : AddsSeparators a a
  | trailing (a b : List Char) : AddsSeparators a b → AddsSeparators a (b ++ ['/'])
  | repeated (a b₁ b₂ : List Char) :
      AddsSeparators a (b₁ ++ '/' :: b₂) → AddsSeparators a (b₁ ++ '/' :: '/' :: b₂)

/-- The policy field name the claims give for an auth type on the write path. -/
def claimedWriteField (authType : String) : String :=
  if authType = "github" then "value"
  else if authType = "okta" ∨ authType = "ldap" ∨ authType = "radius" then "policies"
  else "value"

/-! ## The result of discovery, as a list expression -/

/-- The names listed at `/auth/<mount>/<segment>`; none when the listing is absent. -/
def listedNames {σ : Type} (c : Client σ) (s : σ) (mount segment : String) : List Elem :=
  match c.List s (filepathJoin ["/auth", mount, segment]) with
  | Except.ok (some data) =>
    match keysOf data with
    | Except.ok keys => keys
    | Except.error _ => []
  | _ => []

/-- The name and the policies string lines 93 to 109 compute for a listed element, when the
element is a string, the read returns a secret and the code does not panic on the field. -/
def policiesAt {σ : Type} (c : Client σ) (s : σ) (mount segment dataKey : String) :
    Elem → Option (String × String)
  | Elem.other => none
  | Elem.str name =>
    match c.Read s (filepathJoin ["/auth/", mount, segment, name]) with
    | Except.ok (some data) =>
      match normalisePolicies (data.index dataKey) with
      | Except.ok policies => some (name, policies)
      | Except.error _ => none
    | _ => none

/-- The listing of a sub-collection succeeds: it is absent, or carries a list under `keys`. -/
def listingOk {σ : Type} (c : Client σ) (s : σ) (mount segment : String) : Bool :=
  match c.List s (filepathJoin ["/auth", mount, segment]) with
  | Except.ok none => true
  | Except.ok (some data) =>
    match keysOf data with
    | Except.ok _ => true
    | Except.error _ => false
  | Except.error _ => false

/-- The entries a run of discovery that reaches its end has built for one backend: none for
a kind outside the table; otherwise, for each sub-collection of the kind in table order and
each listed name, the entry of that name with the policies string computed for it. -/
def observedOfBackend {σ : Type} (c : Client σ) (s : σ) (mount kind : String) : List entry :=
  if kind = "github" ∨ kind = "okta" ∨ kind = "ldap" ∨ kind = "radius" then
    (backendTable kind).1.flatMap fun segment =>
      (listedNames c s mount segment).filterMap fun el =>
        (policiesAt c s mount segment (backendTable kind).2 el).map fun np =>
          ⟨np.1, segment, kind, mount, np.2⟩
  else []

/-- The enabled backends, in iteration order; none when the listing fails or is nil. -/
def enabledBackends {σ : Type} (c : Client σ) (s : σ) : List (String × String) :=
  match c.ListAuth s with
  | Except.ok (some mounts) => mounts
  | _ => []

/-- The existing entities a run of discovery that reaches its end has built. -/
def observedSpec {σ : Type} (c : Client σ) (s : σ) : List entry :=
  (enabledBackends c s).flatMap fun mk => observedOfBackend c s mk.1 mk.2

/-- Discovery runs to its end: the backends are listed, every sub-collection of every backend
of a table kind is listed, and every listed name is a string whose payload is read and has a
policy field on which lines 99 to 109 do not panic. -/
def discoveryOk {σ : Type} (c : Client σ) (s : σ) : Bool :=
  (match c.ListAuth s with
    | Except.ok _ => true
    | Except.error _ => false)
  && (enabledBackends c s).all fun mk =>
    !supportedType mk.2 ||
      (backendTable mk.2).1.all fun segment =>
        listingOk c s mk.1 segment
        && (listedNames c s mk.1 segment).all fun el =>
          (policiesAt c s mk.1 segment (backendTable mk.2).2 el).isSome

/-! ## Discovery under the client contract of the specification -/

/-- The type assertion on an element holds: it is a string. -/
def Elem.isStr : Elem → Bool
  | Elem.str _ => true
  | Elem.other => false

/-- The name of a listed element; empty when the element is not a string. -/
def Elem.name : Elem → String
  | Elem.str s => s
  | Elem.other => ""

/-- A policy field of the shape section 6 gives for `Read`: a string or a list of strings. -/
def Value.isPolicyField : Value → Bool
  | Value.str _ => true
  | Value.slice xs => xs.all Elem.isStr
  | _ => false

/-- The canonical policies string of section 4.3: a string verbatim, the elements of a list
joined in their order with a comma. -/
def canonicalPolicies : Value → String
  | Value.str s => s
  | Value.slice xs => stringsJoin (xs.map Elem.name) ","
  | _ => ""

/-- The policy field of the payload read at `/auth/<mount>/<segment>/<name>`; nil when the read
fails or returns no secret. -/
def fieldAt {σ : Type} (c : Client σ) (s : σ) (mount segment dataKey name : String) : Value :=
  match c.Read s (filepathJoin ["/auth/", mount, segment, name]) with
  | Except.ok (some data) => data.index dataKey
  | _ => Value.nil

/-- The read of a listed name succeeds and returns a payload whose policy field is a string or
a list of strings. -/
def readOk {σ : Type} (c : Client σ) (s : σ) (mount segment dataKey : String) (el : Elem) :
    Bool :=
  el.isStr &&
    match c.Read s (filepathJoin ["/auth/", mount, segment, el.name]) with
    | Except.ok (some data) => (data.index dataKey).isPolicyField
    | _ => false

/-- Every listing and read succeeds with an answer of the shape section 6 gives: the backends
are listed; for every backend of a table kind every sub-collection listing is absent or carries
a list under `keys`, every listed name is a string, and the payload read for it has a string
or a list of strings as the policy field of the kind. -/
def contractOk {σ : Type} (c : Client σ) (s : σ) : Bool :=
  (match c.ListAuth s with
    | Except.ok _ => true
    | Except.error _ => false)
  && (enabledBackends c s).all fun mk =>
    !supportedType mk.2 ||
      (backendTable mk.2).1.all fun segment =>
        listingOk c s mk.1 segment
        && (listedNames c s mk.1 segment).all fun el =>
          readOk c s mk.1 segment (backendTable mk.2).2 el

/-- The entries of one backend in the words of the specification: none for a kind outside the
table; otherwise, for each sub-collection of the kind in table order and each listed name, one
entry of that name, segment, kind and mount with the canonical policies of the field read. -/
def specOfBackend {σ : Type} (c : Client σ) (s : σ) (mount kind : String) : List entry :=
  if kind = "github" ∨ kind = "okta" ∨ kind = "ldap" ∨ kind = "radius" then
    (backendTable kind).1.flatMap fun segment =>
      (listedNames c s mount segment).map fun el =>
        ⟨el.name, segment, kind, mount,
          canonicalPolicies (fieldAt c s mount segment (backendTable kind).2 el.name)⟩
  else []

/-- The observed entries in the words of the specification, backend by backend in iteration
order. -/
def specObserved {σ : Type} (c : Client σ) (s : σ) : List entry :=
  (enabledBackends c s).flatMap fun mk => specOfBackend c s mk.1 mk.2

/-! ## The diff primitive -/

/-- Modelled from the spec: `vault.DiffItems` of package `pkg/vault`, which is not among the
sources. Section 4.3: a declared entry is to be written when no observed entry `Equals` it
(a create when its key is absent, an overwrite when its key is there with other policies), and
an observed entry is to be deleted when no declared entry `Equals` it. Both results keep the
order of their side. -/
def DiffItems (declared observed : List entry) : List entry × List entry :=
  (declared.filter fun x => !observed.any fun y => x.Equals (Iface.ofEntry y),
   observed.filter fun y => !declared.any fun x => y.Equals (Iface.ofEntry x))

/-! ## A Vault server that stores what is written -/

/-- A server state: the enabled auth backends and the secrets stored by path. -/
structure Server where
  auths : List (String × String)
  secrets : List (String × SecretData)
deriving DecidableEq, Repr

/-- The rest of `l` after the leading `p`, when `l` starts with `p`. -/
def dropLeading : List Char → List Char → Option (List Char)
  | [], l => some l
  | _ :: _, [] => none
  | a :: p, b :: l => if a = b then dropLeading p l else none

/-- A name of a single path element: not empty, not `.`, not `..`, without separator. -/
def singleName (n : List Char) : Bool :=
  goodSeg n && decide ('/' ∉ n)

/-- The name under which `path` is listed in the directory `dir`, when it lies directly in
it. -/
def childName (dir path : String) : Option String :=
  match dropLeading (dir.data ++ ['/']) path.data with
  | some n => if singleName n then some (String.mk n) else none
  | none => none

/-- The client of the storing server: every call succeeds, `Read` returns the payload last
written at the path (nil when there is none), `List` returns the names of the stored paths
that lie directly under the path, a name being a single path element (nil when there are
none), `Write` replaces and `Delete` removes the payload at the path. The set of enabled
backends does not change. -/
def kvClient : Client Server where
  ListAuth s := Except.ok (some s.auths)
  List s path :=
    match s.secrets.filterMap (fun kv => childName path kv.1) with
    | [] => Except.ok none
    | n :: ns => Except.ok (some [("keys", Value.slice ((n :: ns).map Elem.str))])
  Read s path := Except.ok (s.secrets.lookup path)
  Write s path data :=
    ({ s with secrets := (path, data) :: s.secrets.filter (fun kv => kv.1 ≠ path) }, none)
  Delete s path := ({ s with secrets := s.secrets.filter (fun kv => kv.1 ≠ path) }, none)

/-- The dependencies used in the examples: the configuration bytes decode to `entries`, the
diff is `DiffItems`. -/
def depsOf (entries : List entry) : Deps where
  Unmarshal _ := Except.ok entries
  DiffItems := DiffItems

/-! ## Properties of traces -/

/-- No call of the trace returned an error. -/
def noFailure (t : List Event) : Prop := ∀ ev ∈ t, ev.failed = false

/-- No call of the trace is a `Write` or a `Delete`. -/
def readOnly (t : List Event) : Prop := ∀ ev ∈ t, ev.call.mutating = false

/-- A read-only phase that stops at its first failing call: either no call failed and the
phase did not end in a fatal error, or exactly the last call failed and the phase ended in a
fatal error. -/
def FailFast {α : Type} (x : List Event × Except Abort α) : Prop :=
  readOnly x.1 ∧
    ((noFailure x.1 ∧ ∀ msg, x.2 ≠ Except.error (Abort.fatal msg))
      ∨ ∃ pre ev msg, x.1 = pre ++ [ev] ∧ noFailure pre ∧ ev.failed = true
          ∧ x.2 = Except.error (Abort.fatal msg))

/-- A storing server on which every `Read` is refused. -/
def refusingReads : Client Server :=
  { kvClient with Read := fun _ _ => Except.error "permission denied" }

/-- A storing server on which every `Write` is refused and changes nothing. -/
def refusingWrites : Client Server :=
  { kvClient with Write := fun s _ _ => (s, some "permission denied") }

/-- The mutating calls of a run, in the order they were issued. -/
def mutations {σ : Type} (r : Result σ) : List Event :=
  r.trace.filter fun ev => ev.call.mutating

/-- The `Write` call for an entry to be written. -/
def writeCall (e : entry) : Call := Call.Write e.Key (writeData e)

/-- The `Delete` call for an entry to be deleted. -/
def deleteCall (e : entry) : Call := Call.Delete e.Key

/-- The full sequence of mutating calls for a diff result: the writes, then the deletes. -/
def plannedCalls (toBeWritten toBeDeleted : List entry) : List Call :=
  toBeWritten.map writeCall ++ toBeDeleted.map deleteCall

/-- The events of calls that all succeeded. -/
def okEvents (calls : List Call) : List Event :=
  calls.map fun call => ⟨call, false⟩

/-! ## Vocabulary of the idempotence statement -/

/-- The name of a mount without the trailing separator Vault lists it with. -/
def mountName (m : String) : List Char :=
  if m.data.getLast? = some '/' then m.data.dropLast else m.data

/-- A mount whose name is a single path element. -/
def validMount (m : String) : Bool := singleName (mountName m)

/-- The enabled backends of table kinds are mounted at single path elements, and two of them
with the same name have the same kind. -/
def mountsOk (auths : List (String × String)) : Bool :=
  auths.all fun mk => !supportedType mk.2 ||
    (validMount mk.1 && auths.all fun mk' =>
      !supportedType mk'.2 || decide (mountName mk.1 = mountName mk'.1 → mk.2 = mk'.2))

/-- A declared entry that discovery can find once it is written: its auth type is a table
kind, its mount names an enabled backend of that kind, its group is one of the kind's
sub-collections and its name is a single path element. -/
def discoverable (auths : List (String × String)) (e : entry) : Bool :=
  supportedType e.AuthType && validMount e.AuthMount
    && decide (e.EntityGroup ∈ (backendTable e.AuthType).1)
    && singleName e.EntityName.data
    && auths.any fun mk => decide (mountName mk.1 = mountName e.AuthMount) && mk.2 == e.AuthType

/-- The diff a run computes: `(toBeWritten, toBeDeleted)`, when the configuration decodes and
discovery succeeds. -/
def diffOf {σ : Type} (d : Deps) (c : Client σ) (entriesBytes : String) (s : σ) :
    Option (List entry × List entry) :=
  match d.Unmarshal entriesBytes, (discover c s).2 with
  | Except.ok entries, Except.ok existingEntities => some (d.DiffItems entries existingEntities)
  | _, _ => none

/-- The path element `auth`. -/
def authSeg : List Char := ['a', 'u', 't', 'h']

/-- The cleaned path `/auth/<mount name>/<segment>/<name>`. -/
def pathOf (a : List Char) (seg : String) (n : List Char) : String :=
  String.mk ('/' :: joinSep (authSeg :: a :: (splitSep seg.data ++ [n])))

/-- The storing server holds `data` at the path of the name `n` in the sub-collection `seg`
of the enabled backend `(m, k)` of a table kind. -/
def Stored (s : Server) (m k seg n : String) (data : SecretData) : Prop :=
  (m, k) ∈ s.auths ∧ supportedType k = true ∧ seg ∈ (backendTable k).1
    ∧ singleName n.data = true
    ∧ s.secrets.lookup (pathOf (mountName m) seg n.data) = some data

/-- The storing server after the `Write` of an entry. -/
def kvWrite (s : Server) (e : entry) : Server := (kvClient.Write s e.Key (writeData e)).1

/-- The storing server after the `Delete` of an entry. -/
def kvDelete (s : Server) (e : entry) : Server := (kvClient.Delete s e.Key).1

/-! ## Example data -/

/-- A server with a github, an okta and a userpass backend and two stored bindings. -/
def demoServer : Server :=
  ⟨[("github/", "github"), ("okta/", "okta"), ("userpass/", "userpass")],
    [("/auth/github/map/teams/old-team", [("value", Value.str "p0")]),
     ("/auth/okta/groups/g1", [("policies", Value.slice [Elem.str "a", Elem.str "b"])])]⟩

/-- A configuration that adds a github team and keeps the okta group. -/
def demoEntries : List entry :=
  [⟨"team-a", "map/teams", "github", "github", "default,admin"⟩,
   ⟨"g1", "groups", "okta", "okta", "a,b"⟩]

/-- The state `demoServer` is in after `demoEntries` was applied, its backends listed in
another order. -/
def demoServerAfter : Server :=
  ⟨[("okta/", "okta"), ("userpass/", "userpass"), ("github/", "github")],
    [("/auth/github/map/teams/team-a", [("value", Value.str "default,admin")]),
     ("/auth/okta/groups/g1", [("policies", Value.slice [Elem.str "a", Elem.str "b"])])]⟩

/-- A server with a github team whose payload has no `value` field. -/
def fieldlessServer : Server :=
  ⟨[("github/", "github")], [("/auth/github/map/teams/team-a", [("key", Value.str "team-a")])]⟩

/-- A server with a github team whose `value` field is a number. -/
def numberServer : Server :=
  ⟨[("github/", "github")], [("/auth/github/map/teams/team-a", [("value", Value.named "7")])]⟩

/-- A server whose only backend is of a kind outside the table. -/
def userpassServer : Server := ⟨[("userpass/", "userpass")], []⟩

/-- A configuration with one entry of a kind outside the table. -/
def userpassEntries : List entry := [⟨"bob", "users", "userpass", "userpass", "default"⟩]

/-- A server with an okta group bound to `p1,p2`. -/
def oktaServer : Server :=
  ⟨[("okta/", "okta")], [("/auth/okta/groups/g1", [("policies", Value.str "p1,p2")])]⟩

/-- A configuration that binds the same okta group to `p1`. -/
def oktaEntries : List entry := [⟨"g1", "groups", "okta", "okta", "p1"⟩]

/-- The contract of the diff primitive, section 4.3: the entries to be written are the declared
entries that no observed entry `Equals`, the entries to be deleted are the observed entries
that no declared entry `Equals`. -/
def DiffContract (diff : List entry → List entry → List entry × List entry) : Prop :=
  ∀ declared observed : List entry,
    (∀ w, w ∈ (diff declared observed).1
        ↔ w ∈ declared ∧ ∀ o ∈ observed, w.Equals (Iface.ofEntry o) = false)
    ∧ (∀ x, x ∈ (diff declared observed).2
        ↔ x ∈ observed ∧ ∀ e ∈ declared, x.Equals (Iface.ofEntry e) = false)

/-! ## Path lemmas -/

/-- The model of `filepath.Clean` on cases from the test table of the Go library. -/
theorem filepathClean_examples :
    filepathClean "" = "." ∧ filepathClean "/" = "/" ∧ filepathClean "abc/" = "abc"
    ∧ filepathClean "abc//def//ghi" = "abc/def/ghi" ∧ filepathClean "//abc" = "/abc"
    ∧ filepathClean "abc/./def" = "abc/def" ∧ filepathClean "/./abc/def" = "/abc/def"
    ∧ filepathClean "abc/def/ghi/../jkl" = "abc/def/jkl" ∧ filepathClean "abc/def/.." = "abc"
    ∧ filepathClean "abc/def/../.." = "." ∧ filepathClean "/abc/def/../.." = "/"
    ∧ filepathClean "abc/def/../../.." = ".." ∧ filepathClean "/abc/def/../../.." = "/"
    ∧ filepathClean "abc/def/../../../ghi/jkl/../../../mno" = "../../mno"
    ∧ filepathClean "/../abc" = "/abc" ∧ filepathClean "abc/./../def" = "def"
    ∧ filepathClean "abc//./../def" = "def" ∧ filepathClean "abc/../../././../def" = "../../def"
    ∧ filepathJoin ["a", ""] = "a" ∧ filepathJoin ["", "a"] = "a" ∧ filepathJoin ["", ""] = ""
    ∧ filepathJoin ["/", "a"] = "/a" ∧ filepathJoin ["a/", "b"] = "a/b"
    ∧ filepathJoin ["/auth/", "github/", "map/teams", "team-a"]
        = "/auth/github/map/teams/team-a" := by
  decide

theorem splitSep_ne_nil (a : List Char) : splitSep a ≠ [] := by
  cases a with
  | nil => simp [splitSep]
  | cons c cs =>
    unfold splitSep
    split
    · simp
    · split <;> simp

theorem splitSep_sep_cons (b : List Char) : splitSep ('/' :: b) = [] :: splitSep b := by
  simp [splitSep]

theorem splitSep_append_sep (a b : List Char) :
    splitSep (a ++ '/' :: b) = splitSep a ++ splitSep b := by
  induction a with
  | nil => simp [splitSep]
  | cons c cs ih =>
    by_cases hc : c = '/'
    · subst hc
      simp [splitSep, ih]
    · have h1 : splitSep (c :: cs) = match splitSep cs with
          | [] => [[c]]
          | seg :: rest => (c :: seg) :: rest := by
        simp [splitSep, hc]
      have h2 : splitSep (c :: (cs ++ '/' :: b)) = match splitSep (cs ++ '/' :: b) with
          | [] => [[c]]
          | seg :: rest => (c :: seg) :: rest := by
        simp [splitSep, hc]
      rw [List.cons_append, h2, h1, ih]
      cases hs : splitSep cs with
      | nil => exact absurd hs (splitSep_ne_nil cs)
      | cons seg rest => simp

theorem joinSep_splitSep (a : List Char) : joinSep (splitSep a) = a := by
  induction a with
  | nil => simp [splitSep, joinSep]
  | cons c cs ih =>
    by_cases hc : c = '/'
    · subst hc
      rw [splitSep_sep_cons]
      cases hs : splitSep cs with
      | nil => exact absurd hs (splitSep_ne_nil cs)
      | cons seg rest =>
        rw [hs] at ih
        simp [joinSep, ih]
    · have h1 : splitSep (c :: cs) = match splitSep cs with
          | [] => [[c]]
          | seg :: rest => (c :: seg) :: rest := by
        simp [splitSep, hc]
      rw [h1]
      cases hs : splitSep cs with
      | nil => exact absurd hs (splitSep_ne_nil cs)
      | cons seg rest =>
        rw [hs] at ih
        cases rest with
        | nil => simp [joinSep] at ih ⊢; exact ih
        | cons r rs => simp [joinSep] at ih ⊢; exact ih

theorem splitSep_of_not_mem (s : List Char) (h : '/' ∉ s) : splitSep s = [s] := by
  induction s with
  | nil => simp [splitSep]
  | cons c cs ih =>
    have hc : c ≠ '/' := fun e => h (by simp [e])
    have hcs : '/' ∉ cs := fun e => h (by simp [e])
    simp [splitSep, hc, ih hcs]

theorem joinSep_cons_cons (s t : List Char) (rest : List (List Char)) :
    joinSep (s :: t :: rest) = s ++ '/' :: joinSep (t :: rest) := by
  simp [joinSep]

theorem joinSep_append (A B : List (List Char)) (hA : A ≠ []) (hB : B ≠ []) :
    joinSep (A ++ B) = joinSep A ++ '/' :: joinSep B := by
  induction A with
  | nil => exact absurd rfl hA
  | cons s rest ih =>
    cases rest with
    | nil =>
      cases B with
      | nil => exact absurd rfl hB
      | cons b bs => simp [joinSep]
    | cons t ts =>
      have := ih (by simp)
      simp only [List.cons_append] at this ⊢
      rw [joinSep_cons_cons, this, joinSep_cons_cons]
      simp

theorem splitSep_joinSep (segs : List (List Char)) (hne : segs ≠ [])
    (h : ∀ seg ∈ segs, '/' ∉ seg) : splitSep (joinSep segs) = segs := by
  induction segs with
  | nil => exact absurd rfl hne
  | cons s rest ih =>
    cases rest with
    | nil => simpa [joinSep] using splitSep_of_not_mem s (h s (by simp))
    | cons t ts =>
      rw [joinSep_cons_cons, splitSep_append_sep, splitSep_of_not_mem s (h s (by simp)),
        ih (by simp) (fun seg hseg => h seg (by simp [hseg]))]
      simp


theorem stringsJoin_data (e : String) (rest : List String) :
    (stringsJoin (e :: rest) "/").data = joinSep ((e :: rest).map String.data) := by
  induction rest generalizing e with
  | nil => simp [stringsJoin, joinSep]
  | cons r rs ih =>
    have h := ih r
    simp only [List.map_cons] at h ⊢
    rw [joinSep_cons_cons, ← h]
    simp [stringsJoin, String.data_append]

theorem splitSep_joinSep_flatten (L : List (List Char)) (hne : L ≠ []) :
    splitSep (joinSep L) = (L.map splitSep).flatten := by
  induction L with
  | nil => exact absurd rfl hne
  | cons s rest ih =>
    cases rest with
    | nil => simp [joinSep]
    | cons t ts =>
      rw [joinSep_cons_cons, splitSep_append_sep, ih (by simp)]
      simp

/-- The stack `filepath.Clean` reaches on the joined elements, element by element. -/
theorem foldl_flatten_splitSep (r : Bool) (acc : List (List Char)) (L : List (List Char)) :
    ((L.map splitSep).flatten).foldl (cleanStep r) acc
      = L.foldl (fun st x => (splitSep x).foldl (cleanStep r) st) acc := by
  induction L generalizing acc with
  | nil => simp
  | cons x xs ih => simp [List.foldl_append, ih]

theorem filepathClean_rooted (p : String) (g : List Char) (hp : p.data = '/' :: g) :
    filepathClean p = String.mk ('/' :: joinSep (cleanStack true p.data).reverse) := by
  unfold filepathClean
  have h1 : p.data ≠ [] := by rw [hp]; simp
  have h2 : p.data.head? = some '/' := by rw [hp]; simp
  simp [h1, h2]

theorem filepathJoin_rooted (e : String) (rest : List String) (f : List Char)
    (he : e.data = '/' :: f) :
    filepathJoin (e :: rest) = String.mk ('/' :: joinSep
      (((e :: rest).map String.data).foldl
        (fun st x => (splitSep x).foldl (cleanStep true) st) []).reverse) := by
  have hne : e ≠ "" := by
    intro h
    rw [h] at he
    simp at he
  have hd : ∃ g, (stringsJoin (e :: rest) "/").data = '/' :: g := by
    cases rest with
    | nil => exact ⟨f, by simp [stringsJoin, he]⟩
    | cons r rs => exact ⟨_, by simp [stringsJoin, String.data_append, he]; rfl⟩
  obtain ⟨g, hg⟩ := hd
  have hsplit : cleanStack true (stringsJoin (e :: rest) "/").data
      = ((e :: rest).map String.data).foldl
        (fun st x => (splitSep x).foldl (cleanStep true) st) [] := by
    unfold cleanStack
    rw [stringsJoin_data, splitSep_joinSep_flatten _ (by simp), foldl_flatten_splitSep]
  unfold filepathJoin
  simp only [List.dropWhile_cons, hne, decide_False, Bool.false_eq_true, if_false]
  rw [filepathClean_rooted _ g hg, hsplit]


/-! ## Clean components -/

theorem head_splitSep_eq_nil (a : List Char) (h : (splitSep a).head? = some []) :
    a = [] ∨ a.head? = some '/' := by
  cases a with
  | nil => simp
  | cons c cs =>
    by_cases hc : c = '/'
    · simp [hc]
    · exfalso
      cases hs : splitSep cs with
      | nil => exact absurd hs (splitSep_ne_nil cs)
      | cons seg rest => simp [splitSep, hc, hs] at h

theorem nil_mem_tail_splitSep (a : List Char) (h : [] ∈ (splitSep a).tail) :
    a.getLast? = some '/' ∨ ['/', '/'] <:+: a := by
  induction a with
  | nil => simp [splitSep] at h
  | cons c cs ih =>
    by_cases hc : c = '/'
    · subst hc
      rw [splitSep_sep_cons] at h
      simp only [List.tail_cons] at h
      cases hs : splitSep cs with
      | nil => exact absurd hs (splitSep_ne_nil cs)
      | cons seg rest =>
        rw [hs] at h
        rcases List.mem_cons.mp h with h0 | h1
        · have hh : (splitSep cs).head? = some [] := by rw [hs, ← h0]; rfl
          rcases head_splitSep_eq_nil cs hh with e | e
          · left; simp [e]
          · right
            cases cs with
            | nil => simp at e
            | cons d ds =>
              simp at e
              subst e
              exact ⟨[], ds, by simp⟩
        · have h2 : [] ∈ (splitSep cs).tail := by rw [hs]; exact h1
          rcases ih h2 with e | e
          · left
            cases cs with
            | nil => simp at e
            | cons d ds => simpa [List.getLast?_cons_cons] using e
          · right
            obtain ⟨u, v, huv⟩ := e
            exact ⟨'/' :: u, v, by simp [← huv]⟩
    · cases hs : splitSep cs with
      | nil => exact absurd hs (splitSep_ne_nil cs)
      | cons seg rest =>
        have h2 : [] ∈ (splitSep cs).tail := by
          simp [splitSep, hc, hs] at h
          rw [hs]; exact h
        rcases ih h2 with e | e
        · left
          cases cs with
          | nil => simp at e
          | cons d ds => simpa [List.getLast?_cons_cons] using e
        · right
          obtain ⟨u, v, huv⟩ := e
          exact ⟨c :: u, v, by simp [← huv]⟩

theorem goodSeg_of_cleanComponent (s : String) (h : cleanComponent s = true) :
    ∀ seg ∈ splitSep s.data, goodSeg seg = true := by
  unfold cleanComponent at h
  simp only [Bool.and_eq_true, decide_eq_true_eq] at h
  obtain ⟨⟨⟨⟨⟨h1, h2⟩, h3⟩, h4⟩, h5⟩, h6⟩ := h
  intro seg hseg
  have hne : seg ≠ [] := by
    rintro rfl
    cases hs : splitSep s.data with
    | nil => exact absurd hs (splitSep_ne_nil _)
    | cons x rest =>
      rw [hs] at hseg
      rcases List.mem_cons.mp hseg with h0 | h0
      · have hh : (splitSep s.data).head? = some [] := by rw [hs, ← h0]; rfl
        rcases head_splitSep_eq_nil _ hh with e | e
        · exact h1 e
        · exact h2 e
      · have : [] ∈ (splitSep s.data).tail := by rw [hs]; exact h0
        rcases nil_mem_tail_splitSep _ this with e | e
        · exact h3 e
        · exact h4 e
  have hd : seg ≠ ['.'] := fun e => h5 (e ▸ hseg)
  have hdd : seg ≠ ['.', '.'] := fun e => h6 (e ▸ hseg)
  simp [goodSeg, hne, hd, hdd]

theorem cleanStep_good (r : Bool) (acc : List (List Char)) (seg : List Char)
    (h : goodSeg seg = true) : cleanStep r acc seg = seg :: acc := by
  simp only [goodSeg, Bool.and_eq_true, decide_eq_true_eq] at h
  simp [cleanStep, h.1.1, h.1.2, h.2]

theorem foldl_cleanStep_good (r : Bool) (segs : List (List Char)) (acc : List (List Char))
    (h : ∀ seg ∈ segs, goodSeg seg = true) :
    segs.foldl (cleanStep r) acc = segs.reverse ++ acc := by
  induction segs generalizing acc with
  | nil => simp
  | cons x xs ih =>
    simp only [List.foldl_cons]
    rw [cleanStep_good r acc x (h x (by simp)), ih _ (fun seg hs => h seg (by simp [hs]))]
    simp

/-- The stack of path elements behind `Key`: the elements of the mount, the group and the
name pushed in turn on top of `auth`. -/
theorem Key_eq_stack (e : entry) :
    e.Key = String.mk ('/' :: joinSep
      ((splitSep e.EntityName.data).foldl (cleanStep true)
        ((splitSep e.EntityGroup.data).foldl (cleanStep true)
          ((splitSep e.AuthMount.data).foldl (cleanStep true) [['a', 'u', 't', 'h']]))).reverse) := by
  unfold entry.Key
  rw [filepathJoin_rooted "/auth" _ ['a', 'u', 't', 'h'] rfl]
  have : splitSep "/auth".data = [[], ['a', 'u', 't', 'h']] := by decide
  simp [this, cleanStep]

theorem Key_of_clean (e : entry) (hm : cleanComponent e.AuthMount = true)
    (hg : cleanComponent e.EntityGroup = true) (hn : cleanComponent e.EntityName = true) :
    e.Key = "/auth/" ++ e.AuthMount ++ "/" ++ e.EntityGroup ++ "/" ++ e.EntityName := by
  rw [Key_eq_stack]
  rw [foldl_cleanStep_good _ _ _ (goodSeg_of_cleanComponent _ hm),
    foldl_cleanStep_good _ _ _ (goodSeg_of_cleanComponent _ hg),
    foldl_cleanStep_good _ _ _ (goodSeg_of_cleanComponent _ hn)]
  apply String.ext
  simp only [List.reverse_append, List.reverse_reverse, String.data_append, List.append_assoc,
    List.reverse_cons, List.reverse_nil, List.nil_append]
  have e1 := splitSep_ne_nil e.AuthMount.data
  have e2 := splitSep_ne_nil e.EntityGroup.data
  have e3 := splitSep_ne_nil e.EntityName.data
  rw [joinSep_append _ _ (by simp) (by simp [e1]), joinSep_append _ _ e1 (by simp [e2]),
    joinSep_append _ _ e2 e3, joinSep_splitSep, joinSep_splitSep, joinSep_splitSep]
  simp [joinSep]

theorem foldl_auth (st : List (List Char)) :
    (splitSep "/auth".data).foldl (cleanStep true) st = ['a', 'u', 't', 'h'] :: st := by
  have : splitSep "/auth".data = [[], ['a', 'u', 't', 'h']] := by decide
  rw [this]
  simp [cleanStep]

theorem foldl_auth_sep (st : List (List Char)) :
    (splitSep "/auth/".data).foldl (cleanStep true) st = ['a', 'u', 't', 'h'] :: st := by
  have : splitSep "/auth/".data = [[], ['a', 'u', 't', 'h'], []] := by decide
  rw [this]
  simp [cleanStep]

/-- The listing path of a sub-collection, for a clean mount and segment. -/
theorem listPath_of_clean (mount seg : String) (hm : cleanComponent mount = true)
    (hg : cleanComponent seg = true) :
    filepathJoin ["/auth", mount, seg] = "/auth/" ++ mount ++ "/" ++ seg := by
  rw [filepathJoin_rooted "/auth" _ ['a', 'u', 't', 'h'] rfl]
  simp only [List.map_cons, List.map_nil, List.foldl_cons, List.foldl_nil]
  rw [foldl_auth, foldl_cleanStep_good _ _ _ (goodSeg_of_cleanComponent _ hm),
    foldl_cleanStep_good _ _ _ (goodSeg_of_cleanComponent _ hg)]
  apply String.ext
  simp only [List.reverse_append, List.reverse_reverse, String.data_append, List.append_assoc,
    List.reverse_cons, List.reverse_nil, List.nil_append]
  have e1 := splitSep_ne_nil mount.data
  have e2 := splitSep_ne_nil seg.data
  rw [joinSep_append _ _ (by simp) (by simp [e1]), joinSep_append _ _ e1 e2,
    joinSep_splitSep, joinSep_splitSep]
  simp [joinSep]

/-- The read path of a listed name, for a clean mount, segment and name. -/
theorem readPath_of_clean (mount seg name : String) (hm : cleanComponent mount = true)
    (hg : cleanComponent seg = true) (hn : cleanComponent name = true) :
    filepathJoin ["/auth/", mount, seg, name]
      = "/auth/" ++ mount ++ "/" ++ seg ++ "/" ++ name := by
  rw [filepathJoin_rooted "/auth/" _ ['a', 'u', 't', 'h', '/'] rfl]
  simp only [List.map_cons, List.map_nil, List.foldl_cons, List.foldl_nil]
  rw [foldl_auth_sep, foldl_cleanStep_good _ _ _ (goodSeg_of_cleanComponent _ hm),
    foldl_cleanStep_good _ _ _ (goodSeg_of_cleanComponent _ hg),
    foldl_cleanStep_good _ _ _ (goodSeg_of_cleanComponent _ hn)]
  apply String.ext
  simp only [List.reverse_append, List.reverse_reverse, String.data_append, List.append_assoc,
    List.reverse_cons, List.reverse_nil, List.nil_append]
  have e1 := splitSep_ne_nil mount.data
  have e2 := splitSep_ne_nil seg.data
  have e3 := splitSep_ne_nil name.data
  rw [joinSep_append _ _ (by simp) (by simp [e1]), joinSep_append _ _ e1 (by simp [e2]),
    joinSep_append _ _ e2 e3, joinSep_splitSep, joinSep_splitSep, joinSep_splitSep]
  simp [joinSep]

/-! ## Entry model: `Equals` and `Key` -/

/-- Claim C1: `e.Equals(x)` is true exactly when `x` is an entry with the same `Key()` and the
same `Policies`; it is false on every value that is not an entry, and changing the `AuthType`
of either side does not change the result. -/
theorem entry_Equals_iff (e : entry) (x : Iface) :
    (e.Equals x = true ↔ ∃ o : entry, x = Iface.ofEntry o ∧ o.Key = e.Key ∧ o.Policies = e.Policies)
    ∧ (∀ v : Value, e.Equals (Iface.ofValue v) = false)
    ∧ (∀ (o : entry) (t t' : String),
        ({ e with AuthType := t }).Equals (Iface.ofEntry { o with AuthType := t' })
          = e.Equals (Iface.ofEntry o)) := by
  refine ⟨?_, fun _ => rfl, fun _ _ _ => rfl⟩
  cases x with
  | ofValue v => simp [entry.Equals]
  | ofEntry o =>
    simp only [entry.Equals, entry.Key, Bool.and_eq_true, beq_iff_eq, Iface.ofEntry.injEq]
    constructor
    · rintro ⟨h1, h2⟩
      exact ⟨o, rfl, h1.symm, h2.symm⟩
    · rintro ⟨o', rfl, h1, h2⟩
      exact ⟨h1.symm, h2.symm⟩

theorem foldl_cleanStep_addsSeparators (r : Bool) (a b : List Char) (h : AddsSeparators a b)
    (acc : List (List Char)) :
    (splitSep b).foldl (cleanStep r) acc = (splitSep a).foldl (cleanStep r) acc := by
  induction h with
  | same => rfl
  | trailing b _ ih =>
    rw [splitSep_append_sep, List.foldl_append, ih]
    simp [splitSep, cleanStep]
  | repeated b₁ b₂ _ ih =>
    rw [splitSep_append_sep] at ih ⊢
    rw [List.foldl_append] at ih ⊢
    rw [← ih, splitSep_sep_cons]
    simp [cleanStep]

/-- Claim C2: `Key()` does not depend on trailing or repeated separators in `AuthMount`,
`EntityGroup` or `EntityName` (and, as a function of the entry, gives the same string each time
it is computed). -/
theorem Key_addsSeparators (e e' : entry)
    (hm : AddsSeparators e.AuthMount.data e'.AuthMount.data)
    (hg : AddsSeparators e.EntityGroup.data e'.EntityGroup.data)
    (hn : AddsSeparators e.EntityName.data e'.EntityName.data) :
    e'.Key = e.Key := by
  rw [Key_eq_stack, Key_eq_stack, foldl_cleanStep_addsSeparators _ _ _ hn,
    foldl_cleanStep_addsSeparators _ _ _ hg, foldl_cleanStep_addsSeparators _ _ _ hm]

theorem Key_addsSeparators_witness :
    (⟨"team-a//", "map//teams/", "github", "github/", "p"⟩ : entry).Key
      = (⟨"team-a", "map/teams", "github", "github", "p"⟩ : entry).Key :=
  Key_addsSeparators ⟨"team-a", "map/teams", "github", "github", "p"⟩
    ⟨"team-a//", "map//teams/", "github", "github/", "p"⟩
    (AddsSeparators.trailing _ _ (AddsSeparators.same _))
    (AddsSeparators.trailing _ _
      (AddsSeparators.repeated _ ['m', 'a', 'p'] ['t', 'e', 'a', 'm', 's']
        (AddsSeparators.same _)))
    (AddsSeparators.repeated _ ['t', 'e', 'a', 'm', '-', 'a'] []
      (AddsSeparators.trailing _ _ (AddsSeparators.same _)))

/-! ## Policy normalisation -/

theorem elemsAsStrings_map_str (ss : List String) :
    elemsAsStrings (ss.map Elem.str) = Except.ok ss := by
  induction ss with
  | nil => rfl
  | cons s rest ih => simp [elemsAsStrings, Elem.asString, ih]

/-- Claim C3: discovery takes a string-form policy field verbatim and a list-form field of
strings to its comma-join in the given order; an entity whose payload carries the list
`[s1, ..., sn]` and one whose payload carries the string `s1,...,sn` give the same entry. -/
theorem normalisePolicies_list_string {σ : Type} (c : Client σ) (st : σ)
    (mount kind entityPath dataKey name : String) (ss : List String) (s : String) :
    normalisePolicies (Value.str s) = Except.ok s
    ∧ normalisePolicies (Value.slice (ss.map Elem.str)) = Except.ok (stringsJoin ss ",")
    ∧ (readEntities { c with Read := fun _ _ => Except.ok (some [(dataKey, Value.slice (ss.map Elem.str))]) }
          st mount kind entityPath dataKey [Elem.str name]).2
        = Except.ok [⟨name, entityPath, kind, mount, stringsJoin ss ","⟩]
    ∧ (readEntities { c with Read := fun _ _ => Except.ok (some [(dataKey, Value.str (stringsJoin ss ","))]) }
          st mount kind entityPath dataKey [Elem.str name]).2
        = Except.ok [⟨name, entityPath, kind, mount, stringsJoin ss ","⟩] := by
  refine ⟨rfl, ?_, ?_, ?_⟩
  · simp [normalisePolicies, elemsAsStrings_map_str]
  · simp [readEntities, SecretData.index, List.lookup, normalisePolicies, elemsAsStrings_map_str]
  · simp [readEntities, SecretData.index, List.lookup, normalisePolicies]

/-! ## `writeEntiry` -/

theorem writeDataKey_eq_claimed (t : String) : writeDataKey t = claimedWriteField t := by
  unfold writeDataKey claimedWriteField
  by_cases h1 : t = "github"
  · simp [h1]
  · by_cases h2 : t = "okta"
    · simp [h2]
    · by_cases h3 : t = "ldap"
      · simp [h3]
      · by_cases h4 : t = "radius"
        · simp [h4]
        · simp [h1, h2, h3, h4]

/-- Claim C4: `writeEntiry` makes exactly one client call, a `Write` at `e.Key()` with a
one-field payload mapping the field of the entry's auth type (`value` for github, `policies`
for okta, ldap and radius, `value` otherwise) to `e.Policies`; for clean components the path
is `/auth/<AuthMount>/<EntityGroup>/<EntityName>`. -/
theorem writeEntiry_one_write {σ : Type} (c : Client σ) (s : σ) (e : entry) :
    (∃ failed : Bool, (writeEntiry c s e).trace
        = [⟨Call.Write e.Key [(claimedWriteField e.AuthType, Value.str e.Policies)], failed⟩])
    ∧ (cleanComponent e.AuthMount = true → cleanComponent e.EntityGroup = true →
        cleanComponent e.EntityName = true →
        e.Key = "/auth/" ++ e.AuthMount ++ "/" ++ e.EntityGroup ++ "/" ++ e.EntityName) := by
  refine ⟨?_, Key_of_clean e⟩
  unfold writeEntiry
  simp only [writeData, writeDataKey_eq_claimed]
  rcases hw : c.Write s (filepathJoin ["/auth", e.AuthMount, e.EntityGroup, e.EntityName])
      [(claimedWriteField e.AuthType, Value.str e.Policies)] with ⟨s', _ | msg⟩
  · exact ⟨false, rfl⟩
  · exact ⟨true, rfl⟩

/-- The first scenario of the specification: the declared github team is written at
`/auth/github/map/teams/team-a` under the field `value`. -/
theorem writeEntiry_scenario :
    (writeEntiry kvClient ⟨[("github/", "github")], []⟩
        ⟨"team-a", "map/teams", "github", "github", "default,admin"⟩).trace
      = [⟨Call.Write "/auth/github/map/teams/team-a" [("value", Value.str "default,admin")],
          false⟩] :=
  rfl

theorem backendTable_dataKey (t : String)
    (h : t = "github" ∨ t = "okta" ∨ t = "ldap" ∨ t = "radius") :
    (backendTable t).2 = writeDataKey t := by
  rcases h with h | h | h | h <;> rw [h] <;> decide

theorem normalise_writeData (e : entry)
    (h : e.AuthType = "github" ∨ e.AuthType = "okta" ∨ e.AuthType = "ldap"
      ∨ e.AuthType = "radius") :
    normalisePolicies ((writeData e).index (backendTable e.AuthType).2)
      = Except.ok e.Policies := by
  rw [backendTable_dataKey _ h]
  simp [writeData, SecretData.index, List.lookup, normalisePolicies]

/-- Claim C10: for github, okta, ldap and radius the field discovery reads is the field
`writeEntiry` writes, and normalising the payload written for an entry, read under discovery's
field, gives back the entry's `Policies`. -/
theorem dataKey_tables_agree (e : entry)
    (h : e.AuthType = "github" ∨ e.AuthType = "okta" ∨ e.AuthType = "ldap"
      ∨ e.AuthType = "radius") :
    (backendTable e.AuthType).2 = writeDataKey e.AuthType
    ∧ normalisePolicies ((writeData e).index (backendTable e.AuthType).2)
        = Except.ok e.Policies :=
  ⟨backendTable_dataKey _ h, normalise_writeData e h⟩

theorem dataKey_tables_agree_witness :
    (backendTable "okta").2 = writeDataKey "okta"
    ∧ normalisePolicies ((writeData ⟨"g1", "groups", "okta", "okta", "p1,p2"⟩).index
        (backendTable "okta").2) = Except.ok "p1,p2" :=
  dataKey_tables_agree ⟨"g1", "groups", "okta", "okta", "p1,p2"⟩ (Or.inr (Or.inl rfl))

/-! ## Discovery computes the specified entries -/

/-- The entry discovery builds for a listed name, when its policies can be read. -/
theorem readEntities_spec {σ : Type} (c : Client σ) (s : σ) (mount kind seg dataKey : String)
    (els : List Elem) :
    (els.all (fun el => (policiesAt c s mount seg dataKey el).isSome) = true
      ∧ (readEntities c s mount kind seg dataKey els).2
        = Except.ok (els.filterMap fun el =>
            (policiesAt c s mount seg dataKey el).map fun np =>
              (⟨np.1, seg, kind, mount, np.2⟩ : entry)))
    ∨ (els.all (fun el => (policiesAt c s mount seg dataKey el).isSome) = false
      ∧ ∃ a, (readEntities c s mount kind seg dataKey els).2 = Except.error a) := by
  induction els with
  | nil => left; simp [readEntities]
  | cons el rest ih =>
    cases el with
    | other =>
      right
      have hp : policiesAt c s mount seg dataKey Elem.other = none := rfl
      simp [readEntities, hp]
    | str name =>
      cases hr : c.Read s (filepathJoin ["/auth/", mount, seg, name]) with
      | error msg =>
        right
        have hp : policiesAt c s mount seg dataKey (Elem.str name) = none := by
          simp [policiesAt, hr]
        simp [readEntities, hr, hp]
      | ok o =>
        cases o with
        | none =>
          right
          have hp : policiesAt c s mount seg dataKey (Elem.str name) = none := by
            simp [policiesAt, hr]
          simp [readEntities, hr, hp]
        | some data =>
          cases hn : normalisePolicies (data.index dataKey) with
          | error a =>
            right
            have hp : policiesAt c s mount seg dataKey (Elem.str name) = none := by
              simp [policiesAt, hr, hn]
            simp [readEntities, hr, hn, hp]
          | ok policies =>
            have hp : policiesAt c s mount seg dataKey (Elem.str name)
                = some (name, policies) := by
              simp [policiesAt, hr, hn]
            rcases hrest : readEntities c s mount kind seg dataKey rest with ⟨t, a | es⟩
            · right
              rw [hrest] at ih
              rcases ih with ⟨_, h2⟩ | ⟨h1, _⟩
              · simp at h2
              · refine ⟨?_, ?_⟩
                · rw [List.all_cons, h1]; simp
                · simp [readEntities, hr, hn, hrest]
            · left
              rw [hrest] at ih
              rcases ih with ⟨h1, h2⟩ | ⟨_, ⟨a, h2⟩⟩
              · simp only [Except.ok.injEq] at h2
                refine ⟨?_, ?_⟩
                · rw [List.all_cons, h1, hp]; rfl
                · simp only [readEntities, hr, hn, hrest, List.filterMap_cons, hp, Option.map_some']
                  rw [h2]
              · simp at h2

theorem scanEntityPaths_spec {σ : Type} (c : Client σ) (s : σ) (mount kind dataKey : String)
    (segs : List String) :
    (segs.all (fun seg => listingOk c s mount seg
        && (listedNames c s mount seg).all
            (fun el => (policiesAt c s mount seg dataKey el).isSome)) = true
      ∧ (scanEntityPaths c s mount kind dataKey segs).2
        = Except.ok (segs.flatMap fun seg =>
            (listedNames c s mount seg).filterMap fun el =>
              (policiesAt c s mount seg dataKey el).map fun np =>
                (⟨np.1, seg, kind, mount, np.2⟩ : entry)))
    ∨ (segs.all (fun seg => listingOk c s mount seg
        && (listedNames c s mount seg).all
            (fun el => (policiesAt c s mount seg dataKey el).isSome)) = false
      ∧ ∃ a, (scanEntityPaths c s mount kind dataKey segs).2 = Except.error a) := by
  induction segs with
  | nil => left; simp [scanEntityPaths]
  | cons seg rest ih =>
    cases hl : c.List s (filepathJoin ["/auth", mount, seg]) with
    | error msg =>
      right
      have h1 : listingOk c s mount seg = false := by simp [listingOk, hl]
      simp [scanEntityPaths, hl, h1]
    | ok o =>
      cases o with
      | none =>
        have h1 : listingOk c s mount seg = true := by simp [listingOk, hl]
        have h2 : listedNames c s mount seg = [] := by simp [listedNames, hl]
        rcases hrest : scanEntityPaths c s mount kind dataKey rest with ⟨t, a | es⟩
        · right
          rw [hrest] at ih
          rcases ih with ⟨_, h⟩ | ⟨h, _⟩
          · simp at h
          · refine ⟨?_, ?_⟩
            · rw [List.all_cons, h]; simp
            · simp [scanEntityPaths, hl, hrest]
        · left
          rw [hrest] at ih
          rcases ih with ⟨h, h'⟩ | ⟨_, ⟨a, h⟩⟩
          · simp only [Except.ok.injEq] at h'
            refine ⟨?_, ?_⟩
            · rw [List.all_cons, h, h1, h2]; rfl
            · simp only [scanEntityPaths, hl, hrest, List.flatMap_cons, h2,
                List.filterMap_nil, List.nil_append]
              rw [h']
          · simp at h
      | some data =>
        cases hk : keysOf data with
        | error a =>
          right
          have h1 : listingOk c s mount seg = false := by simp [listingOk, hl, hk]
          simp [scanEntityPaths, hl, hk, h1]
        | ok keys =>
          have h1 : listingOk c s mount seg = true := by simp [listingOk, hl, hk]
          have h2 : listedNames c s mount seg = keys := by simp [listedNames, hl, hk]
          rcases hre : readEntities c s mount kind seg dataKey keys with ⟨t0, a | es0⟩
          · right
            have h3 := readEntities_spec c s mount kind seg dataKey keys
            rw [hre] at h3
            rcases h3 with ⟨_, h⟩ | ⟨h, _⟩
            · simp at h
            · refine ⟨?_, ?_⟩
              · rw [List.all_cons, h1, h2, h]; rfl
              · simp [scanEntityPaths, hl, hk, hre]
          · have h3 := readEntities_spec c s mount kind seg dataKey keys
            rw [hre] at h3
            rcases h3 with ⟨h3, h3'⟩ | ⟨_, ⟨a, h⟩⟩
            · simp only [Except.ok.injEq] at h3'
              rcases hrest : scanEntityPaths c s mount kind dataKey rest with ⟨t, a | es⟩
              · right
                rw [hrest] at ih
                rcases ih with ⟨_, h⟩ | ⟨h, _⟩
                · simp at h
                · refine ⟨?_, ?_⟩
                  · rw [List.all_cons, h]; simp
                  · simp [scanEntityPaths, hl, hk, hre, hrest]
              · left
                rw [hrest] at ih
                rcases ih with ⟨h, h'⟩ | ⟨_, ⟨a, h⟩⟩
                · simp only [Except.ok.injEq] at h'
                  refine ⟨?_, ?_⟩
                  · rw [List.all_cons, h, h1, h2, h3]; rfl
                  · simp only [scanEntityPaths, hl, hk, hre, hrest, List.flatMap_cons, h2]
                    rw [h3', h']
                · simp at h
            · simp at h

theorem scanMounts_spec {σ : Type} (c : Client σ) (s : σ) (mounts : List (String × String)) :
    (mounts.all (fun mk => !supportedType mk.2 ||
        (backendTable mk.2).1.all fun seg => listingOk c s mk.1 seg
          && (listedNames c s mk.1 seg).all
              (fun el => (policiesAt c s mk.1 seg (backendTable mk.2).2 el).isSome)) = true
      ∧ (scanMounts c s mounts).2
        = Except.ok (mounts.flatMap fun mk => observedOfBackend c s mk.1 mk.2))
    ∨ (mounts.all (fun mk => !supportedType mk.2 ||
        (backendTable mk.2).1.all fun seg => listingOk c s mk.1 seg
          && (listedNames c s mk.1 seg).all
              (fun el => (policiesAt c s mk.1 seg (backendTable mk.2).2 el).isSome)) = false
      ∧ ∃ a, (scanMounts c s mounts).2 = Except.error a) := by
  induction mounts with
  | nil => left; simp [scanMounts]
  | cons mk rest ih =>
    obtain ⟨mount, kind⟩ := mk
    by_cases hs : supportedType kind = true
    · have hsup : (kind = "github" ∨ kind = "okta" ∨ kind = "ldap" ∨ kind = "radius") := by
        simp [supportedType] at hs
        tauto
      have hobs : observedOfBackend c s mount kind
          = (backendTable kind).1.flatMap fun seg =>
            (listedNames c s mount seg).filterMap fun el =>
              (policiesAt c s mount seg (backendTable kind).2 el).map fun np =>
                (⟨np.1, seg, kind, mount, np.2⟩ : entry) := by
        simp [observedOfBackend, hsup]
      have h3 := scanEntityPaths_spec c s mount kind (backendTable kind).2 (backendTable kind).1
      rcases hse : scanEntityPaths c s mount kind (backendTable kind).2 (backendTable kind).1
        with ⟨t0, a | es0⟩
      · right
        rw [hse] at h3
        rcases h3 with ⟨_, h⟩ | ⟨h, _⟩
        · simp at h
        · refine ⟨?_, ?_⟩
          · rw [List.all_cons]
            simp only [hs, Bool.not_true, Bool.false_or, h, Bool.false_and]
          · simp [scanMounts, hs, hse]
      · rw [hse] at h3
        rcases h3 with ⟨h3, h3'⟩ | ⟨_, ⟨a, h⟩⟩
        · simp only [Except.ok.injEq] at h3'
          rcases hrest : scanMounts c s rest with ⟨t, a | es⟩
          · right
            rw [hrest] at ih
            rcases ih with ⟨_, h⟩ | ⟨h, _⟩
            · simp at h
            · refine ⟨?_, ?_⟩
              · rw [List.all_cons, h]; simp
              · simp [scanMounts, hs, hse, hrest]
          · left
            rw [hrest] at ih
            rcases ih with ⟨h, h'⟩ | ⟨_, ⟨a, h⟩⟩
            · simp only [Except.ok.injEq] at h'
              refine ⟨?_, ?_⟩
              · rw [List.all_cons, h]
                simp only [hs, Bool.not_true, Bool.false_or, h3, Bool.and_self]
              · simp only [scanMounts, hs, if_true, hse, hrest, List.flatMap_cons, hobs]
                rw [h3', h']
            · simp at h
        · simp at h
    · have hs' : supportedType kind = false := by simpa using hs
      have hsup : ¬ (kind = "github" ∨ kind = "okta" ∨ kind = "ldap" ∨ kind = "radius") := by
        simp [supportedType] at hs'
        tauto
      have hobs : observedOfBackend c s mount kind = [] := by
        simp [observedOfBackend, hsup]
      rcases hrest : scanMounts c s rest with ⟨t, a | es⟩
      · right
        rw [hrest] at ih
        rcases ih with ⟨_, h⟩ | ⟨h, _⟩
        · simp at h
        · refine ⟨?_, ?_⟩
          · rw [List.all_cons, h]; simp
          · simp [scanMounts, hs', hrest]
      · left
        rw [hrest] at ih
        rcases ih with ⟨h, h'⟩ | ⟨_, ⟨a, h⟩⟩
        · simp only [Except.ok.injEq] at h'
          refine ⟨?_, ?_⟩
          · rw [List.all_cons, h]
            simp [hs']
          · simp only [scanMounts, hs', List.flatMap_cons, hobs, List.nil_append]
            simp [hrest, h']
        · simp at h

/-- Discovery reaches its end exactly when `discoveryOk` holds, and has then built
`observedSpec`. -/
theorem discover_spec {σ : Type} (c : Client σ) (s : σ) :
    (discoveryOk c s = true ∧ (discover c s).2 = Except.ok (observedSpec c s))
    ∨ (discoveryOk c s = false ∧ ∃ a, (discover c s).2 = Except.error a) := by
  cases hl : c.ListAuth s with
  | error msg => right; simp [discoveryOk, discover, hl]
  | ok o =>
    cases o with
    | none => left; simp [discoveryOk, discover, hl, observedSpec, enabledBackends]
    | some mounts =>
      have he : enabledBackends c s = mounts := by simp [enabledBackends, hl]
      rcases scanMounts_spec c s mounts with ⟨h1, h2⟩ | ⟨h1, ⟨a, h2⟩⟩
      · left
        refine ⟨?_, ?_⟩
        · simp only [discoveryOk, hl, he, Bool.true_and]
          exact h1
        · simp only [discover, hl, observedSpec, he]
          exact h2
      · right
        refine ⟨?_, a, ?_⟩
        · simp only [discoveryOk, hl, he, Bool.true_and]
          exact h1
        · simp only [discover, hl]
          exact h2

theorem elemsAsStrings_of_isStr (xs : List Elem) (h : xs.all Elem.isStr = true) :
    elemsAsStrings xs = Except.ok (xs.map Elem.name) := by
  induction xs with
  | nil => rfl
  | cons x rest ih =>
    rw [List.all_cons, Bool.and_eq_true] at h
    cases x with
    | other => cases h.1
    | str z => simp [elemsAsStrings, Elem.asString, ih h.2, Elem.name]

/-- On a string or a list of strings the code computes the canonical policies string. -/
theorem normalisePolicies_of_isPolicyField (v : Value) (h : v.isPolicyField = true) :
    normalisePolicies v = Except.ok (canonicalPolicies v) := by
  cases v with
  | nil => cases h
  | str z => rfl
  | named z => cases h
  | typedSlice => cases h
  | other => cases h
  | slice xs =>
    simp only [Value.isPolicyField] at h
    simp [normalisePolicies, canonicalPolicies, elemsAsStrings_of_isStr xs h]

theorem readOk_iff {σ : Type} (c : Client σ) (s : σ) (mount seg dataKey : String) (el : Elem) :
    readOk c s mount seg dataKey el = true
      ↔ el = Elem.str el.name
        ∧ ∃ data, c.Read s (filepathJoin ["/auth/", mount, seg, el.name]) = Except.ok (some data)
            ∧ (data.index dataKey).isPolicyField = true := by
  unfold readOk
  rw [Bool.and_eq_true]
  constructor
  · rintro ⟨h1, h2⟩
    refine ⟨?_, ?_⟩
    · cases el with
      | other => cases h1
      | str z => rfl
    · split at h2
      · rename_i data hr
        exact ⟨data, hr, h2⟩
      · cases h2
  · rintro ⟨h1, data, hr, h2⟩
    refine ⟨by rw [h1]; rfl, ?_⟩
    rw [hr]
    exact h2

theorem policiesAt_of_readOk {σ : Type} (c : Client σ) (s : σ) (mount seg dataKey : String)
    (el : Elem) (h : readOk c s mount seg dataKey el = true) :
    policiesAt c s mount seg dataKey el
        = some (el.name, canonicalPolicies (fieldAt c s mount seg dataKey el.name))
      ∧ (fieldAt c s mount seg dataKey el.name).isPolicyField = true := by
  obtain ⟨h1, data, hr, h2⟩ := (readOk_iff c s mount seg dataKey el).mp h
  cases el with
  | other => cases h1
  | str z =>
    have hr' : c.Read s (filepathJoin ["/auth/", mount, seg, z]) = Except.ok (some data) := hr
    have hf : fieldAt c s mount seg dataKey z = data.index dataKey := by
      simp only [fieldAt, hr']
    show policiesAt c s mount seg dataKey (Elem.str z)
        = some (z, canonicalPolicies (fieldAt c s mount seg dataKey z))
      ∧ (fieldAt c s mount seg dataKey z).isPolicyField = true
    rw [hf]
    refine ⟨?_, h2⟩
    simp only [policiesAt, hr', normalisePolicies_of_isPolicyField _ h2]

theorem flatMap_congr_mem {α β : Type} (l : List α) (f g : α → List β)
    (h : ∀ x ∈ l, f x = g x) : l.flatMap f = l.flatMap g := by
  induction l with
  | nil => rfl
  | cons x rest ih =>
    rw [List.flatMap_cons, List.flatMap_cons, h x (by simp),
      ih (fun y hy => h y (by simp [hy]))]

theorem filterMap_eq_map_mem {α β : Type} (l : List α) (f : α → Option β) (g : α → β)
    (h : ∀ x ∈ l, f x = some (g x)) : l.filterMap f = l.map g := by
  induction l with
  | nil => rfl
  | cons x rest ih =>
    rw [List.filterMap_cons, h x (by simp), List.map_cons,
      ih (fun y hy => h y (by simp [hy]))]

/-- What the contract gives for one backend of a table kind. -/
theorem contractOk_backend {σ : Type} (c : Client σ) (s : σ) (h : contractOk c s = true)
    (mount kind : String) (hmk : (mount, kind) ∈ enabledBackends c s)
    (hk : kind = "github" ∨ kind = "okta" ∨ kind = "ldap" ∨ kind = "radius") :
    ∀ seg ∈ (backendTable kind).1, listingOk c s mount seg = true
      ∧ ∀ el ∈ listedNames c s mount seg,
          readOk c s mount seg (backendTable kind).2 el = true := by
  unfold contractOk at h
  rw [Bool.and_eq_true] at h
  have h2 := List.all_eq_true.mp h.2 (mount, kind) hmk
  have hs : supportedType kind = true := by
    simp [supportedType]
    tauto
  simp only [hs, Bool.not_true, Bool.false_or] at h2
  intro seg hseg
  have h3 := List.all_eq_true.mp h2 seg hseg
  rw [Bool.and_eq_true] at h3
  exact ⟨h3.1, fun el hel => List.all_eq_true.mp h3.2 el hel⟩

theorem discoveryOk_of_contractOk {σ : Type} (c : Client σ) (s : σ)
    (h : contractOk c s = true) : discoveryOk c s = true := by
  have hb := contractOk_backend c s h
  unfold contractOk at h
  rw [Bool.and_eq_true] at h
  unfold discoveryOk
  rw [Bool.and_eq_true]
  refine ⟨h.1, ?_⟩
  rw [List.all_eq_true]
  rintro ⟨mount, kind⟩ hmk
  by_cases hs : supportedType kind = true
  · have hk : kind = "github" ∨ kind = "okta" ∨ kind = "ldap" ∨ kind = "radius" := by
      simp [supportedType] at hs
      tauto
    simp only [hs, Bool.not_true, Bool.false_or]
    rw [List.all_eq_true]
    intro seg hseg
    obtain ⟨h1, h2⟩ := hb mount kind hmk hk seg hseg
    rw [Bool.and_eq_true]
    refine ⟨h1, ?_⟩
    rw [List.all_eq_true]
    intro el hel
    rw [(policiesAt_of_readOk c s mount seg _ el (h2 el hel)).1]
    rfl
  · have hs' : supportedType kind = false := by simpa using hs
    simp [hs']

/-- Under the contract the entries discovery computes are the entries in the words of the
specification. -/
theorem observedSpec_eq_specObserved {σ : Type} (c : Client σ) (s : σ)
    (h : contractOk c s = true) : observedSpec c s = specObserved c s := by
  unfold observedSpec specObserved
  apply flatMap_congr_mem
  rintro ⟨mount, kind⟩ hmk
  unfold observedOfBackend specOfBackend
  by_cases hk : kind = "github" ∨ kind = "okta" ∨ kind = "ldap" ∨ kind = "radius"
  · rw [if_pos hk, if_pos hk]
    apply flatMap_congr_mem
    intro seg hseg
    apply filterMap_eq_map_mem
    intro el hel
    have := (contractOk_backend c s h mount kind hmk hk seg hseg).2 el hel
    rw [(policiesAt_of_readOk c s mount seg _ el this).1]
    rfl
  · rw [if_neg hk, if_neg hk]

theorem join_addsSeparators (first : String) (f : List Char) (hf : first.data = '/' :: f)
    (m0 m seg0 seg : String)
    (hm : AddsSeparators m0.data m.data) (hg : AddsSeparators seg0.data seg.data) :
    filepathJoin [first, m, seg] = filepathJoin [first, m0, seg0] := by
  rw [filepathJoin_rooted first _ f hf, filepathJoin_rooted first _ f hf]
  simp only [List.map_cons, List.map_nil, List.foldl_cons, List.foldl_nil]
  rw [foldl_cleanStep_addsSeparators _ _ _ hg, foldl_cleanStep_addsSeparators _ _ _ hm]

theorem join_addsSeparators_name (first : String) (f : List Char) (hf : first.data = '/' :: f)
    (m0 m seg0 seg n0 n : String)
    (hm : AddsSeparators m0.data m.data) (hg : AddsSeparators seg0.data seg.data)
    (hn : AddsSeparators n0.data n.data) :
    filepathJoin [first, m, seg, n] = filepathJoin [first, m0, seg0, n0] := by
  rw [filepathJoin_rooted first _ f hf, filepathJoin_rooted first _ f hf]
  simp only [List.map_cons, List.map_nil, List.foldl_cons, List.foldl_nil]
  rw [foldl_cleanStep_addsSeparators _ _ _ hn, foldl_cleanStep_addsSeparators _ _ _ hg,
    foldl_cleanStep_addsSeparators _ _ _ hm]

/-- Claim C5, amended: when every listing and read succeeds with an answer of the shape of
section 6 (a listing absent or a list of strings under `keys`, a payload whose policy field is
a string or a list of strings), discovery returns exactly the entries of the specification:
for each enabled backend of kind github, okta, ldap or radius, in iteration order, for each
sub-collection of the kind in table order and each name listed at `/auth/<mount>/<segment>`,
one entry of that name, segment, kind and mount with the canonical policies of the field read
at `/auth/<mount>/<segment>/<name>`; other kinds and absent listings give nothing, and every
observed entry has one of its kind's sub-collections as `EntityGroup`. The two paths are the
cleaned joins: the strings above for clean components, also when the mount, the segment or
the name carries trailing or repeated separators, as the mounts Vault lists do. -/
theorem discover_observed {σ : Type} (c : Client σ) (s : σ) (h : contractOk c s = true) :
    (discover c s).2 = Except.ok (specObserved c s)
    ∧ (∀ o ∈ specObserved c s,
        (o.AuthType = "github" ∨ o.AuthType = "okta" ∨ o.AuthType = "ldap"
          ∨ o.AuthType = "radius")
        ∧ o.EntityGroup ∈ (backendTable o.AuthType).1
        ∧ (o.AuthMount, o.AuthType) ∈ enabledBackends c s
        ∧ Elem.str o.EntityName ∈ listedNames c s o.AuthMount o.EntityGroup
        ∧ (fieldAt c s o.AuthMount o.EntityGroup (backendTable o.AuthType).2
            o.EntityName).isPolicyField = true
        ∧ o.Policies = canonicalPolicies
            (fieldAt c s o.AuthMount o.EntityGroup (backendTable o.AuthType).2 o.EntityName))
    ∧ (backendTable "github").1 = ["map/teams", "map/users"]
    ∧ (backendTable "okta").1 = ["groups", "users"]
    ∧ (backendTable "ldap").1 = ["groups", "users"]
    ∧ (backendTable "radius").1 = ["users"]
    ∧ (∀ m0 mount g0 seg : String, cleanComponent m0 = true → cleanComponent g0 = true →
        AddsSeparators m0.data mount.data → AddsSeparators g0.data seg.data →
        filepathJoin ["/auth", mount, seg] = "/auth/" ++ m0 ++ "/" ++ g0)
    ∧ (∀ m0 mount g0 seg n0 name : String, cleanComponent m0 = true →
        cleanComponent g0 = true → cleanComponent n0 = true →
        AddsSeparators m0.data mount.data → AddsSeparators g0.data seg.data →
        AddsSeparators n0.data name.data →
        filepathJoin ["/auth/", mount, seg, name]
          = "/auth/" ++ m0 ++ "/" ++ g0 ++ "/" ++ n0) := by
  refine ⟨?_, ?_, rfl, rfl, rfl, rfl, ?_, ?_⟩
  · rcases discover_spec c s with ⟨_, h2⟩ | ⟨h1, _⟩
    · rw [h2, observedSpec_eq_specObserved c s h]
    · rw [discoveryOk_of_contractOk c s h] at h1
      cases h1
  · intro o ho
    simp only [specObserved, List.mem_flatMap] at ho
    obtain ⟨⟨mount, kind⟩, hmk, ho⟩ := ho
    unfold specOfBackend at ho
    split at ho
    · rename_i hk
      simp only [List.mem_flatMap, List.mem_map] at ho
      obtain ⟨seg, hseg, el, hel, rfl⟩ := ho
      have hr := (contractOk_backend c s h mount kind hmk hk seg hseg).2 el hel
      have hname := ((readOk_iff c s mount seg _ el).mp hr).1
      refine ⟨hk, hseg, hmk, ?_, (policiesAt_of_readOk c s mount seg _ el hr).2, rfl⟩
      simp only
      rw [← hname]
      exact hel
    · simp at ho
  · intro m0 mount g0 seg h1 h2 h3 h4
    rw [join_addsSeparators "/auth" _ rfl m0 mount g0 seg h3 h4]
    exact listPath_of_clean m0 g0 h1 h2
  · intro m0 mount g0 seg n0 name h1 h2 h3 h4 h5 h6
    rw [join_addsSeparators_name "/auth/" _ rfl m0 mount g0 seg n0 name h4 h5 h6]
    exact readPath_of_clean m0 g0 n0 h1 h2 h3

theorem discover_observed_witness :
    (discover kvClient demoServer).2
      = Except.ok [⟨"old-team", "map/teams", "github", "github/", "p0"⟩,
          ⟨"g1", "groups", "okta", "okta/", "a,b"⟩] :=
  (discover_observed kvClient demoServer (by decide)).1

/-- Claim C5 fails as worded: on a server whose github team has a payload without the field
`value`, every listing and read returns without error, and discovery panics at line 100
instead of building the entry of the specification. -/
theorem discover_panics_without_failure :
    discover kvClient fieldlessServer
      = ([⟨Call.ListAuth, false⟩, ⟨Call.List "/auth/github/map/teams", false⟩,
          ⟨Call.Read "/auth/github/map/teams/team-a", false⟩], Except.error Abort.panic)
    ∧ (∀ ev ∈ (discover kvClient fieldlessServer).1, ev.failed = false)
    ∧ specObserved kvClient fieldlessServer
        = [⟨"team-a", "map/teams", "github", "github/", ""⟩]
    ∧ (discover kvClient fieldlessServer).2
        ≠ Except.ok (specObserved kvClient fieldlessServer) := by
  refine ⟨rfl, by decide, rfl, ?_⟩
  intro h
  cases h

/-- A policy field that is a number: its kind is String, the assertion of line 102 panics. -/
theorem discover_number_field_panics :
    discover kvClient numberServer
      = ([⟨Call.ListAuth, false⟩, ⟨Call.List "/auth/github/map/teams", false⟩,
          ⟨Call.Read "/auth/github/map/teams/team-a", false⟩], Except.error Abort.panic) :=
  rfl

/-! ## Discovery is read-only and stops at its first failing call -/

theorem failFast_nil {α : Type} (r : Except Abort α) (h : ∀ msg, r ≠ Except.error (Abort.fatal msg)) :
    FailFast (([] : List Event), r) := by
  refine ⟨?_, Or.inl ⟨?_, h⟩⟩
  · intro ev hev; cases hev
  · intro ev hev; cases hev

theorem failFast_failed {α : Type} (call : Call) (hc : call.mutating = false) (msg : String) :
    FailFast (([⟨call, true⟩] : List Event), (Except.error (Abort.fatal msg) : Except Abort α)) := by
  refine ⟨?_, Or.inr ⟨[], ⟨call, true⟩, msg, rfl, ?_, rfl, rfl⟩⟩
  · intro ev hev
    simp only [List.mem_singleton] at hev
    rw [hev]; exact hc
  · intro ev hev; cases hev

theorem failFast_single {α : Type} (call : Call) (hc : call.mutating = false)
    (r : Except Abort α) (h : ∀ msg, r ≠ Except.error (Abort.fatal msg)) :
    FailFast (([⟨call, false⟩] : List Event), r) := by
  refine ⟨?_, Or.inl ⟨?_, h⟩⟩
  · intro ev hev
    simp only [List.mem_singleton] at hev
    rw [hev]; exact hc
  · intro ev hev
    simp only [List.mem_singleton] at hev
    rw [hev]

/-- A phase that did not fail, followed by a fail-fast phase, is fail-fast, whatever value the
first phase returned; the final result is the second one up to its value. -/
theorem failFast_append {α β γ : Type} (t1 t2 : List Event) (a : Except Abort α)
    (r : Except Abort β) (r' : Except Abort γ)
    (h1 : FailFast (t1, a)) (ha : noFailure t1)
    (h2 : FailFast (t2, r))
    (hr : ∀ msg, r = Except.error (Abort.fatal msg) ↔ r' = Except.error (Abort.fatal msg)) :
    FailFast (t1 ++ t2, r') := by
  refine ⟨?_, ?_⟩
  · intro ev hev
    rcases List.mem_append.mp hev with h | h
    · exact h1.1 ev h
    · exact h2.1 ev h
  · rcases h2.2 with ⟨hn, hf⟩ | ⟨pre, ev, msg, ht, hpre, hev, hres⟩
    · left
      refine ⟨?_, ?_⟩
      · intro ev hev
        rcases List.mem_append.mp hev with h | h
        · exact ha ev h
        · exact hn ev h
      · intro msg hm
        exact hf msg ((hr msg).mpr hm)
    · right
      refine ⟨t1 ++ pre, ev, msg, ?_, ?_, hev, (hr msg).mp hres⟩
      · simp only at ht
        simp [ht]
      · intro e he
        rcases List.mem_append.mp he with h | h
        · exact ha e h
        · exact hpre e h

theorem noFailure_of_ok {α : Type} (t : List Event) (a : α)
    (h : FailFast (t, (Except.ok a : Except Abort α))) : noFailure t := by
  rcases h.2 with ⟨hn, _⟩ | ⟨_, _, _, _, _, _, hres⟩
  · exact hn
  · cases hres

theorem elemsAsStrings_error (xs : List Elem) (a : Abort)
    (h : elemsAsStrings xs = Except.error a) : a = Abort.panic := by
  induction xs generalizing a with
  | nil => simp [elemsAsStrings] at h
  | cons v vs ih =>
    cases v with
    | other => simp [elemsAsStrings, Elem.asString] at h; exact h.symm
    | str z =>
      simp only [elemsAsStrings, Elem.asString] at h
      split at h
      · rename_i a' hx
        injection h with h'
        rw [← h']
        exact ih a' hx
      · cases h

theorem normalisePolicies_error (v : Value) (a : Abort)
    (h : normalisePolicies v = Except.error a) : a = Abort.panic := by
  cases v with
  | nil => simp [normalisePolicies] at h; exact h.symm
  | str s => simp [normalisePolicies] at h
  | named s => simp [normalisePolicies] at h; exact h.symm
  | typedSlice => simp [normalisePolicies] at h; exact h.symm
  | other => simp [normalisePolicies] at h
  | slice xs =>
    simp only [normalisePolicies] at h
    split at h
    · rename_i a' hx
      injection h with h'
      rw [← h']
      exact elemsAsStrings_error xs a' hx
    · cases h

theorem failFast_readEntities {σ : Type} (c : Client σ) (s : σ)
    (mount kind seg dataKey : String) (els : List Elem) :
    FailFast (readEntities c s mount kind seg dataKey els) := by
  induction els with
  | nil => exact failFast_nil _ (by intro msg h; cases h)
  | cons el rest ih =>
    cases el with
    | other => exact failFast_nil _ (by intro msg h; cases h)
    | str name =>
      cases hr : c.Read s (filepathJoin ["/auth/", mount, seg, name]) with
      | error msg =>
        simp only [readEntities, hr]
        exact failFast_failed (Call.Read _) rfl msg
      | ok o =>
        cases o with
        | none =>
          simp only [readEntities, hr]
          exact failFast_single (Call.Read _) rfl _ (by intro msg h; cases h)
        | some data =>
          cases hn : normalisePolicies (data.index dataKey) with
          | error a =>
            have ha : a = Abort.panic := normalisePolicies_error _ a hn
            subst ha
            simp only [readEntities, hr, hn]
            exact failFast_single (Call.Read _) rfl _ (by intro msg h; cases h)
          | ok policies =>
            rcases hrest : readEntities c s mount kind seg dataKey rest with ⟨t, a | es⟩
            · rw [hrest] at ih
              simp only [readEntities, hr, hn, hrest]
              exact failFast_append [⟨Call.Read _, false⟩] t (Except.ok ()) _ _
                (failFast_single (Call.Read _) rfl _ (by intro msg h; cases h))
                (by intro ev hev; simp only [List.mem_singleton] at hev; rw [hev])
                ih (fun _ => Iff.rfl)
            · rw [hrest] at ih
              simp only [readEntities, hr, hn, hrest]
              exact failFast_append [⟨Call.Read _, false⟩] t (Except.ok ()) _ _
                (failFast_single (Call.Read _) rfl _ (by intro msg h; cases h))
                (by intro ev hev; simp only [List.mem_singleton] at hev; rw [hev])
                ih (fun _ => by constructor <;> (intro h; cases h))

theorem failFast_cons {α β : Type} (call : Call) (hc : call.mutating = false) (t : List Event)
    (r : Except Abort α) (r' : Except Abort β) (h : FailFast (t, r))
    (hr : ∀ msg, r = Except.error (Abort.fatal msg) ↔ r' = Except.error (Abort.fatal msg)) :
    FailFast (⟨call, false⟩ :: t, r') :=
  failFast_append [⟨call, false⟩] t (Except.ok ()) r r'
    (failFast_single call hc _ (by intro msg h; cases h))
    (by intro ev hev; simp only [List.mem_singleton] at hev; rw [hev]) h hr

theorem keysOf_error (data : SecretData) (a : Abort) (h : keysOf data = Except.error a) :
    a = Abort.panic := by
  unfold keysOf at h
  split at h
  · cases h
  · injection h with h'
    exact h'.symm

theorem failFast_scanEntityPaths {σ : Type} (c : Client σ) (s : σ)
    (mount kind dataKey : String) (segs : List String) :
    FailFast (scanEntityPaths c s mount kind dataKey segs) := by
  induction segs with
  | nil => exact failFast_nil _ (by intro msg h; cases h)
  | cons seg rest ih =>
    cases hl : c.List s (filepathJoin ["/auth", mount, seg]) with
    | error msg =>
      simp only [scanEntityPaths, hl]
      exact failFast_failed (Call.List _) rfl msg
    | ok o =>
      have key : ∀ (t : List Event) (r : Except Abort (List entry)), FailFast (t, r) →
          FailFast (match (t, r) with
            | (t, Except.error a) => ((⟨Call.List (filepathJoin ["/auth", mount, seg]), false⟩ : Event) :: t,
                (Except.error a : Except Abort (List entry)))
            | (t, Except.ok es) =>
              match scanEntityPaths c s mount kind dataKey rest with
              | (t2, Except.error a) =>
                ((⟨Call.List (filepathJoin ["/auth", mount, seg]), false⟩ : Event) :: t ++ t2,
                  Except.error a)
              | (t2, Except.ok es2) =>
                ((⟨Call.List (filepathJoin ["/auth", mount, seg]), false⟩ : Event) :: t ++ t2,
                  Except.ok (es ++ es2))) := by
        intro t r hff
        cases r with
        | error a => exact failFast_cons (Call.List _) rfl t _ _ hff (fun _ => Iff.rfl)
        | ok es =>
          have h1 : FailFast ((⟨Call.List (filepathJoin ["/auth", mount, seg]), false⟩ : Event) :: t,
              (Except.ok es : Except Abort (List entry))) :=
            failFast_cons (Call.List _) rfl t _ _ hff (fun _ => Iff.rfl)
          rcases hrest : scanEntityPaths c s mount kind dataKey rest with ⟨t2, a | es2⟩
          · rw [hrest] at ih
            exact failFast_append _ t2 _ _ _ h1 (noFailure_of_ok _ _ h1) ih (fun _ => Iff.rfl)
          · rw [hrest] at ih
            exact failFast_append _ t2 _ _ _ h1 (noFailure_of_ok _ _ h1) ih
              (fun _ => by constructor <;> (intro h; cases h))
      cases o with
      | none =>
        simp only [scanEntityPaths, hl]
        exact key [] (Except.ok []) (failFast_nil _ (by intro msg h; cases h))
      | some data =>
        cases hk : keysOf data with
        | error a =>
          have ha := keysOf_error data a hk
          subst ha
          simp only [scanEntityPaths, hl, hk]
          exact key [] (Except.error Abort.panic) (failFast_nil _ (by intro msg h; cases h))
        | ok keys =>
          simp only [scanEntityPaths, hl, hk]
          have := key _ _ (failFast_readEntities c s mount kind seg dataKey keys)
          exact this

theorem failFast_scanMounts {σ : Type} (c : Client σ) (s : σ) (mounts : List (String × String)) :
    FailFast (scanMounts c s mounts) := by
  induction mounts with
  | nil => exact failFast_nil _ (by intro msg h; cases h)
  | cons mk rest ih =>
    obtain ⟨mount, kind⟩ := mk
    have key : ∀ (t : List Event) (r : Except Abort (List entry)), FailFast (t, r) →
        FailFast (match (t, r) with
          | (t, Except.error a) => (t, (Except.error a : Except Abort (List entry)))
          | (t, Except.ok es) =>
            match scanMounts c s rest with
            | (t2, Except.error a) => (t ++ t2, Except.error a)
            | (t2, Except.ok es2) => (t ++ t2, Except.ok (es ++ es2))) := by
      intro t r hff
      cases r with
      | error a => exact hff
      | ok es =>
        rcases hrest : scanMounts c s rest with ⟨t2, a | es2⟩
        · rw [hrest] at ih
          exact failFast_append _ t2 _ _ _ hff (noFailure_of_ok _ _ hff) ih (fun _ => Iff.rfl)
        · rw [hrest] at ih
          exact failFast_append _ t2 _ _ _ hff (noFailure_of_ok _ _ hff) ih
            (fun _ => by constructor <;> (intro h; cases h))
    by_cases hs : supportedType kind = true
    · simp only [scanMounts, hs, if_true]
      exact key _ _ (failFast_scanEntityPaths c s mount kind _ _)
    · simp only [scanMounts, hs, if_false]
      exact key [] (Except.ok []) (failFast_nil _ (by intro msg h; cases h))

theorem failFast_discover {σ : Type} (c : Client σ) (s : σ) : FailFast (discover c s) := by
  cases hl : c.ListAuth s with
  | error msg =>
    simp only [discover, hl]
    exact failFast_failed Call.ListAuth rfl msg
  | ok o =>
    cases o with
    | none =>
      simp only [discover, hl]
      exact failFast_single Call.ListAuth rfl _ (by intro msg h; cases h)
    | some mounts =>
      simp only [discover, hl]
      exact failFast_cons Call.ListAuth rfl _ _ _ (failFast_scanMounts c s mounts)
        (fun _ => Iff.rfl)

/-! ## The apply phase -/

theorem writeEntiry_cases {σ : Type} (c : Client σ) (s : σ) (e : entry) :
    (∃ s', writeEntiry c s e = ⟨s', [⟨writeCall e, false⟩], none⟩)
    ∨ (∃ s' msg, writeEntiry c s e = ⟨s', [⟨writeCall e, true⟩], some (Abort.fatal msg)⟩) := by
  unfold writeEntiry writeCall entry.Key
  rcases hw : c.Write s (filepathJoin ["/auth", e.AuthMount, e.EntityGroup, e.EntityName])
      (writeData e) with ⟨s', _ | msg⟩
  · exact Or.inl ⟨s', by simp only [hw]⟩
  · exact Or.inr ⟨s', msg, by simp only [hw]⟩

theorem deleteEntity_cases {σ : Type} (c : Client σ) (s : σ) (e : entry) :
    (∃ s', deleteEntity c s e = ⟨s', [⟨deleteCall e, false⟩], none⟩)
    ∨ (∃ s' msg, deleteEntity c s e = ⟨s', [⟨deleteCall e, true⟩], some (Abort.fatal msg)⟩) := by
  unfold deleteEntity deleteCall entry.Key
  rcases hw : c.Delete s (filepathJoin ["/auth", e.AuthMount, e.EntityGroup, e.EntityName])
    with ⟨s', _ | msg⟩
  · exact Or.inl ⟨s', by simp only [hw]⟩
  · exact Or.inr ⟨s', msg, by simp only [hw]⟩

/-- A loop over entries whose body makes one call per entry: either every call succeeded, or
the calls stop with the first one that failed. -/
theorem forEach_cases {σ : Type} (body : σ → entry → Result σ) (call : entry → Call)
    (hbody : ∀ s e, (∃ s', body s e = ⟨s', [⟨call e, false⟩], none⟩)
      ∨ (∃ s' msg, body s e = ⟨s', [⟨call e, true⟩], some (Abort.fatal msg)⟩))
    (s : σ) (es : List entry) :
    ((forEach body s es).status = none
      ∧ (forEach body s es).trace = okEvents (es.map call))
    ∨ (∃ es1 e es2 msg, es = es1 ++ e :: es2
      ∧ (forEach body s es).trace = okEvents (es1.map call) ++ [⟨call e, true⟩]
      ∧ (forEach body s es).status = some (Abort.fatal msg)) := by
  induction es generalizing s with
  | nil => left; exact ⟨rfl, rfl⟩
  | cons e rest ih =>
    rcases hbody s e with ⟨s', hb⟩ | ⟨s', msg, hb⟩
    · rcases ih s' with ⟨h1, h2⟩ | ⟨es1, e', es2, msg, h0, h1, h2⟩
      · left
        rcases hf : forEach body s' rest with ⟨s'', t2, st⟩
        rw [hf] at h1 h2
        simp only at h1 h2
        simp only [forEach, hb, hf]
        exact ⟨h1, by rw [h2]; rfl⟩
      · right
        rcases hf : forEach body s' rest with ⟨s'', t2, st⟩
        rw [hf] at h1 h2
        simp only at h1 h2
        refine ⟨e :: es1, e', es2, msg, by rw [h0]; rfl, ?_, ?_⟩
        · simp only [forEach, hb, hf]
          rw [h1]; rfl
        · simp only [forEach, hb, hf]
          exact h2
    · right
      refine ⟨[], e, rest, msg, rfl, ?_, ?_⟩
      · simp only [forEach, hb]; rfl
      · simp only [forEach, hb]

/-- The three ways the apply branch can end. -/
theorem applyOrReport_cases {σ : Type} (c : Client σ) (s : σ) (W D : List entry) :
    ((applyOrReport c s false W D).status = none
      ∧ (applyOrReport c s false W D).trace = okEvents (plannedCalls W D))
    ∨ (∃ W1 w W2 msg, W = W1 ++ w :: W2
      ∧ (applyOrReport c s false W D).trace
          = okEvents (W1.map writeCall) ++ [⟨writeCall w, true⟩]
      ∧ (applyOrReport c s false W D).status = some (Abort.fatal msg))
    ∨ (∃ D1 d D2 msg, D = D1 ++ d :: D2
      ∧ (applyOrReport c s false W D).trace
          = okEvents (W.map writeCall) ++ (okEvents (D1.map deleteCall) ++ [⟨deleteCall d, true⟩])
      ∧ (applyOrReport c s false W D).status = some (Abort.fatal msg)) := by
  rcases hw : forEach (writeEntiry c) s W with ⟨s', t, st⟩
  have h1 := forEach_cases (writeEntiry c) writeCall (writeEntiry_cases c) s W
  rw [hw] at h1
  simp only at h1
  rcases h1 with ⟨hst, ht⟩ | ⟨W1, w, W2, msg, hW, ht, hst⟩
  · subst hst
    rcases hd : forEach (deleteEntity c) s' D with ⟨s'', t2, st2⟩
    have h2 := forEach_cases (deleteEntity c) deleteCall (deleteEntity_cases c) s' D
    rw [hd] at h2
    simp only at h2
    have hr : applyOrReport c s false W D = ⟨s'', t ++ t2, st2⟩ := by
      simp [applyOrReport, hw, hd]
    rw [hr]
    rcases h2 with ⟨hst2, ht2⟩ | ⟨D1, d, D2, msg, hD, ht2, hst2⟩
    · left
      refine ⟨hst2, ?_⟩
      simp only [ht, ht2, plannedCalls, okEvents, List.map_append]
    · right; right
      refine ⟨D1, d, D2, msg, hD, ?_, hst2⟩
      simp only [ht, ht2]
  · right; left
    have hr : applyOrReport c s false W D = ⟨s', t, st⟩ := by
      subst hst
      simp [applyOrReport, hw]
    rw [hr]
    exact ⟨W1, w, W2, msg, hW, ht, hst⟩

theorem mutating_okEvents_write (W : List entry) :
    ∀ ev ∈ okEvents (W.map writeCall), ev.call.mutating = true ∧ ev.failed = false
      ∧ ∀ p, ev.call ≠ Call.Delete p := by
  intro ev hev
  simp only [okEvents, List.mem_map] at hev
  obtain ⟨_, ⟨w, _, rfl⟩, rfl⟩ := hev
  exact ⟨rfl, rfl, fun p h => by cases h⟩

theorem mutating_okEvents_delete (D : List entry) :
    ∀ ev ∈ okEvents (D.map deleteCall), ev.call.mutating = true ∧ ev.failed = false := by
  intro ev hev
  simp only [okEvents, List.mem_map] at hev
  obtain ⟨_, ⟨w, _, rfl⟩, rfl⟩ := hev
  exact ⟨rfl, rfl⟩

/-- Every call of the apply branch is a `Write` or a `Delete`. -/
theorem applyOrReport_mutating {σ : Type} (c : Client σ) (s : σ) (W D : List entry) :
    ∀ ev ∈ (applyOrReport c s false W D).trace, ev.call.mutating = true := by
  intro ev hev
  rcases applyOrReport_cases c s W D with ⟨_, ht⟩ | ⟨W1, w, W2, msg, _, ht, _⟩
    | ⟨D1, d, D2, msg, _, ht, _⟩
  · rw [ht] at hev
    simp only [plannedCalls, okEvents, List.map_append, List.mem_append] at hev
    rcases hev with h | h
    · exact (mutating_okEvents_write W ev h).1
    · exact (mutating_okEvents_delete D ev h).1
  · rw [ht] at hev
    rcases List.mem_append.mp hev with h | h
    · exact (mutating_okEvents_write W1 ev h).1
    · simp only [List.mem_singleton] at h
      rw [h]; rfl
  · rw [ht] at hev
    rcases List.mem_append.mp hev with h | h
    · exact (mutating_okEvents_write W ev h).1
    · rcases List.mem_append.mp h with h | h
      · exact (mutating_okEvents_delete D1 ev h).1
      · simp only [List.mem_singleton] at h
        rw [h]; rfl

/-! ## `Apply` -/

theorem Apply_of_discovered {σ : Type} (d : Deps) (c : Client σ) (bytes : String)
    (dryRun : Bool) (s : σ) (entries obs : List entry)
    (hU : d.Unmarshal bytes = Except.ok entries)
    (hD : (discover c s).2 = Except.ok obs) :
    Apply d c bytes dryRun s
      = ⟨(applyOrReport c s dryRun (d.DiffItems entries obs).1 (d.DiffItems entries obs).2).state,
         (discover c s).1
           ++ (applyOrReport c s dryRun (d.DiffItems entries obs).1 (d.DiffItems entries obs).2).trace,
         (applyOrReport c s dryRun (d.DiffItems entries obs).1 (d.DiffItems entries obs).2).status⟩ := by
  rcases hd : discover c s with ⟨t, r⟩
  rw [hd] at hD
  simp only at hD
  subst hD
  simp only [Apply, hU, hd]

theorem Apply_of_discover_error {σ : Type} (d : Deps) (c : Client σ) (bytes : String)
    (dryRun : Bool) (s : σ) (entries : List entry) (a : Abort)
    (hU : d.Unmarshal bytes = Except.ok entries)
    (hD : (discover c s).2 = Except.error a) :
    Apply d c bytes dryRun s = ⟨s, (discover c s).1, some a⟩ := by
  rcases hd : discover c s with ⟨t, r⟩
  rw [hd] at hD
  simp only at hD
  subst hD
  simp only [Apply, hU, hd]

theorem filter_mutating_readOnly (t : List Event) (h : readOnly t) :
    t.filter (fun ev => ev.call.mutating) = [] := by
  rw [List.filter_eq_nil_iff]
  intro ev hev
  simp [h ev hev]

theorem filter_mutating_all (t : List Event) (h : ∀ ev ∈ t, ev.call.mutating = true) :
    t.filter (fun ev => ev.call.mutating) = t := by
  rw [List.filter_eq_self]
  exact h

/-- The mutating calls of a run in apply mode are the calls of its apply branch. -/
theorem mutations_Apply {σ : Type} (d : Deps) (c : Client σ) (bytes : String)
    (s : σ) (entries obs : List entry)
    (hU : d.Unmarshal bytes = Except.ok entries)
    (hD : (discover c s).2 = Except.ok obs) :
    mutations (Apply d c bytes false s)
      = (applyOrReport c s false (d.DiffItems entries obs).1 (d.DiffItems entries obs).2).trace := by
  rw [Apply_of_discovered d c bytes false s entries obs hU hD]
  simp only [mutations, List.filter_append]
  rw [filter_mutating_readOnly _ (failFast_discover c s).1,
    filter_mutating_all _ (applyOrReport_mutating c s _ _)]
  rfl

/-- Claim C6: a dry run issues no `Write` and no `Delete`, whatever the diff, and leaves the
server state as it was. -/
theorem Apply_dryRun_pure {σ : Type} (d : Deps) (c : Client σ) (entriesBytes : String) (s : σ) :
    mutations (Apply d c entriesBytes true s) = []
    ∧ (∀ ev ∈ (Apply d c entriesBytes true s).trace,
        (∀ path data, ev.call ≠ Call.Write path data) ∧ ∀ path, ev.call ≠ Call.Delete path)
    ∧ (Apply d c entriesBytes true s).state = s := by
  have hro : readOnly (Apply d c entriesBytes true s).trace
      ∧ (Apply d c entriesBytes true s).state = s := by
    cases hU : d.Unmarshal entriesBytes with
    | error msg =>
      have : Apply d c entriesBytes true s = ⟨s, [], some (Abort.fatal msg)⟩ := by
        simp only [Apply, hU]
      rw [this]
      exact ⟨fun _ h => (by cases h), rfl⟩
    | ok entries =>
      have hff := failFast_discover c s
      cases hd : (discover c s).2 with
      | error a =>
        rw [Apply_of_discover_error d c entriesBytes true s entries a hU hd]
        exact ⟨hff.1, rfl⟩
      | ok obs =>
        rw [Apply_of_discovered d c entriesBytes true s entries obs hU hd]
        simp only [applyOrReport, if_true, List.append_nil]
        exact ⟨hff.1, trivial⟩
  refine ⟨filter_mutating_readOnly _ hro.1, ?_, hro.2⟩
  intro ev hev
  have := hro.1 ev hev
  refine ⟨?_, ?_⟩
  · intro path data h
    rw [h] at this
    cases this
  · intro path h
    rw [h] at this
    cases this

theorem eq_nil_or_mem_of_concat_eq {α : Type} (pre' pre post : List α) (e' ev : α)
    (h : pre' ++ [e'] = pre ++ ev :: post) : post = [] ∨ ev ∈ pre' := by
  rcases List.eq_nil_or_concat post with hp | ⟨q, z, hp⟩
  · exact Or.inl hp
  · right
    subst hp
    have h' : pre' ++ [e'] = (pre ++ ev :: q) ++ [z] := by
      rw [h]; simp
    have := List.append_inj_left' h' rfl
    rw [this]
    simp

/-- Claim C7: when a call of discovery fails (listing the backends, listing a
sub-collection or reading a payload), the run ends with that call in a fatal error, no diff is
computed, no `Write` and no `Delete` is issued and the server state is unchanged, in dry-run
and apply mode alike. -/
theorem Apply_discovery_failure {σ : Type} (d : Deps) (c : Client σ) (entriesBytes : String)
    (dryRun : Bool) (s : σ) (pre post : List Event) (ev : Event)
    (h : (Apply d c entriesBytes dryRun s).trace = pre ++ ev :: post)
    (hf : ev.failed = true) (hm : ev.call.mutating = false) :
    post = []
    ∧ (∃ msg, (Apply d c entriesBytes dryRun s).status = some (Abort.fatal msg))
    ∧ diffOf d c entriesBytes s = none
    ∧ mutations (Apply d c entriesBytes dryRun s) = []
    ∧ (Apply d c entriesBytes dryRun s).state = s := by
  cases hU : d.Unmarshal entriesBytes with
  | error msg =>
    simp only [Apply, hU] at h
    cases pre <;> cases h
  | ok entries =>
    have hff := failFast_discover c s
    cases hd : (discover c s).2 with
    | error a =>
      have hdiff : diffOf d c entriesBytes s = none := by simp only [diffOf, hU, hd]
      rw [Apply_of_discover_error d c entriesBytes dryRun s entries a hU hd] at h ⊢
      simp only at h
      unfold FailFast at hff
      rw [hd] at hff
      have hmem : ev ∈ (discover c s).1 := by rw [h]; simp
      rcases hff.2 with ⟨hn, _⟩ | ⟨pre', ev', msg, ht, hpre, _, hres⟩
      · have := hn ev hmem
        rw [hf] at this
        cases this
      · rw [ht] at h
        injection hres with hres
        refine ⟨?_, ⟨msg, by rw [hres]⟩, hdiff, filter_mutating_readOnly _ hff.1, rfl⟩
        rcases eq_nil_or_mem_of_concat_eq pre' pre post ev' ev h with hp | hp
        · exact hp
        · have := hpre ev hp
          rw [hf] at this
          cases this
    | ok obs =>
      exfalso
      rw [Apply_of_discovered d c entriesBytes dryRun s entries obs hU hd] at h
      simp only at h
      unfold FailFast at hff
      rw [hd] at hff
      have hn : noFailure (discover c s).1 := by
        rcases hff.2 with ⟨hn, _⟩ | ⟨_, _, _, _, _, _, hres⟩
        · exact hn
        · cases hres
      have hmem : ev ∈ (discover c s).1
          ++ (applyOrReport c s dryRun (d.DiffItems entries obs).1 (d.DiffItems entries obs).2).trace := by
        rw [h]; simp
      rcases List.mem_append.mp hmem with h1 | h1
      · have := hn ev h1
        rw [hf] at this
        cases this
      · cases dryRun with
        | true => simp [applyOrReport] at h1
        | false =>
          have := applyOrReport_mutating c s _ _ ev h1
          rw [hm] at this
          cases this

theorem Apply_discovery_failure_witness :
    ([] : List Event) = []
    ∧ (∃ msg, (Apply (depsOf demoEntries) refusingReads "" false demoServer).status
        = some (Abort.fatal msg))
    ∧ diffOf (depsOf demoEntries) refusingReads "" demoServer = none
    ∧ mutations (Apply (depsOf demoEntries) refusingReads "" false demoServer) = []
    ∧ (Apply (depsOf demoEntries) refusingReads "" false demoServer).state = demoServer :=
  Apply_discovery_failure (depsOf demoEntries) refusingReads "" false demoServer
    [⟨Call.ListAuth, false⟩, ⟨Call.List "/auth/github/map/teams", false⟩] []
    ⟨Call.Read "/auth/github/map/teams/old-team", true⟩ (by decide) rfl rfl

/-- Claim C8: in apply mode the mutating calls issued are a prefix of the writes of
`toBeWritten` in order followed by the deletes of `toBeDeleted` in order; they are the whole
sequence, all successful, when the run ends normally, and otherwise end with the first failing
call; a `Delete` is only issued after every `Write` was issued and succeeded, so the write of
every entry to be written precedes the delete of every entry to be deleted. -/
theorem Apply_writes_then_deletes {σ : Type} (d : Deps) (c : Client σ) (entriesBytes : String)
    (s : σ) (entries obs : List entry)
    (hU : d.Unmarshal entriesBytes = Except.ok entries)
    (hD : (discover c s).2 = Except.ok obs) :
    (mutations (Apply d c entriesBytes false s)).map Event.call
        <+: plannedCalls (d.DiffItems entries obs).1 (d.DiffItems entries obs).2
    ∧ (((Apply d c entriesBytes false s).status = none
          ∧ mutations (Apply d c entriesBytes false s)
            = okEvents (plannedCalls (d.DiffItems entries obs).1 (d.DiffItems entries obs).2))
        ∨ ∃ pre ev msg, mutations (Apply d c entriesBytes false s) = pre ++ [ev]
            ∧ noFailure pre ∧ ev.failed = true
            ∧ (Apply d c entriesBytes false s).status = some (Abort.fatal msg))
    ∧ (∀ pre ev post path, mutations (Apply d c entriesBytes false s) = pre ++ ev :: post →
        ev.call = Call.Delete path →
        (∃ ds, pre = okEvents ((d.DiffItems entries obs).1.map writeCall) ++ ds)
        ∧ ∀ w ∈ (d.DiffItems entries obs).1, (⟨writeCall w, false⟩ : Event) ∈ pre) := by
  have hst : (Apply d c entriesBytes false s).status
      = (applyOrReport c s false (d.DiffItems entries obs).1 (d.DiffItems entries obs).2).status := by
    rw [Apply_of_discovered d c entriesBytes false s entries obs hU hD]
  rw [mutations_Apply d c entriesBytes s entries obs hU hD, hst]
  generalize (d.DiffItems entries obs).1 = W
  generalize (d.DiffItems entries obs).2 = D
  have hmapok : ∀ cs : List Call, (okEvents cs).map Event.call = cs := by
    intro cs
    simp [okEvents, Function.comp_def]
  have hnf : ∀ cs : List Call, noFailure (okEvents cs) := by
    intro cs ev hev
    simp only [okEvents, List.mem_map] at hev
    obtain ⟨_, _, rfl⟩ := hev
    rfl
  have hdel : ∀ (ws rest pre post : List Event) (ev : Event) (path : String),
      (∀ e ∈ ws, ∀ p, e.call ≠ Call.Delete p) →
      ws ++ rest = pre ++ ev :: post → ev.call = Call.Delete path → ∃ ds, pre = ws ++ ds := by
    intro ws rest pre post ev path hws h hev
    rcases List.append_eq_append_iff.mp h with ⟨a', h1, _⟩ | ⟨c', h1, h2⟩
    · exact ⟨a', h1⟩
    · cases c' with
      | nil => exact ⟨[], by simpa using h1.symm⟩
      | cons x xs =>
        exfalso
        simp only [List.cons_append, List.cons.injEq] at h2
        have : ev ∈ ws := by rw [h1, h2.1]; simp
        exact hws ev this path hev
  have hwnd : ∀ W' : List entry, ∀ e ∈ okEvents (W'.map writeCall),
      ∀ p, e.call ≠ Call.Delete p := fun W' e he => (mutating_okEvents_write W' e he).2.2
  have hmemW : ∀ (pre ds : List Event), pre = okEvents (W.map writeCall) ++ ds →
      ∀ w ∈ W, (⟨writeCall w, false⟩ : Event) ∈ pre := by
    intro pre ds hp w hw
    rw [hp]
    apply List.mem_append_left
    simp only [okEvents, List.mem_map]
    exact ⟨writeCall w, ⟨w, hw, rfl⟩, rfl⟩
  rcases applyOrReport_cases c s W D with ⟨hs, ht⟩ | ⟨W1, w, W2, msg, hW, ht, hs⟩
    | ⟨D1, dd, D2, msg, hDD, ht, hs⟩
  · refine ⟨?_, Or.inl ⟨hs, ht⟩, ?_⟩
    · rw [ht, hmapok]
    · intro pre ev post path h hev
      rw [ht] at h
      simp only [plannedCalls, okEvents, List.map_append] at h
      obtain ⟨ds, hds⟩ := hdel _ _ pre post ev path (hwnd W) h hev
      exact ⟨⟨ds, hds⟩, hmemW pre ds hds⟩
  · refine ⟨?_, Or.inr ⟨_, _, msg, ht, hnf _, rfl, hs⟩, ?_⟩
    · rw [ht, List.map_append, hmapok, hW]
      simp only [plannedCalls, List.map_append, List.map_cons, List.map_nil, List.append_assoc]
      exact ⟨W2.map writeCall ++ D.map deleteCall, by simp⟩
    · intro pre ev post path h hev
      exfalso
      rw [ht] at h
      have hmem : ev ∈ okEvents (W1.map writeCall) ++ [⟨writeCall w, true⟩] := by
        rw [h]; simp
      rcases List.mem_append.mp hmem with h1 | h1
      · exact hwnd W1 ev h1 path hev
      · simp only [List.mem_singleton] at h1
        rw [h1] at hev
        cases hev
  · refine ⟨?_, Or.inr ⟨okEvents (W.map writeCall) ++ okEvents (D1.map deleteCall), _, msg,
      by rw [ht, List.append_assoc], ?_, rfl, hs⟩, ?_⟩
    · rw [ht, List.map_append, List.map_append, hmapok, hmapok, hDD]
      simp only [plannedCalls, List.map_append, List.map_cons, List.map_nil]
      exact ⟨D2.map deleteCall, by simp⟩
    · intro e he
      rcases List.mem_append.mp he with h1 | h1
      · exact hnf _ e h1
      · exact hnf _ e h1
    · intro pre ev post path h hev
      rw [ht] at h
      obtain ⟨ds, hds⟩ := hdel _ _ pre post ev path (hwnd W) h hev
      exact ⟨⟨ds, hds⟩, hmemW pre ds hds⟩

theorem Apply_writes_then_deletes_witness :
    mutations (Apply (depsOf oktaEntries) kvClient "" false oktaServer)
      = [⟨Call.Write "/auth/okta/groups/g1" [("policies", Value.str "p1")], false⟩,
         ⟨Call.Delete "/auth/okta/groups/g1", false⟩] :=
  (Apply_writes_then_deletes (depsOf oktaEntries) kvClient "" oktaServer
      oktaEntries [⟨"g1", "groups", "okta", "okta/", "p1,p2"⟩]
      rfl rfl).2.1.elim (fun h => h.2)
    (fun h => by
      obtain ⟨_, _, msg, _, _, _, hs⟩ := h
      have hnone : (Apply (depsOf oktaEntries) kvClient "" false oktaServer).status = none := rfl
      rw [hnone] at hs
      cases hs)

/-! ## Paths of discoverable entries -/

theorem not_mem_of_mem_splitSep (a : List Char) : ∀ x ∈ splitSep a, '/' ∉ x := by
  induction a with
  | nil => simp [splitSep]
  | cons c cs ih =>
    by_cases hc : c = '/'
    · subst hc
      rw [splitSep_sep_cons]
      intro x hx
      rcases List.mem_cons.mp hx with h | h
      · rw [h]; simp
      · exact ih x h
    · cases hs : splitSep cs with
      | nil => exact absurd hs (splitSep_ne_nil cs)
      | cons seg rest =>
        rw [hs] at ih
        have h1 : splitSep (c :: cs) = (c :: seg) :: rest := by simp [splitSep, hc, hs]
        rw [h1]
        intro x hx
        rcases List.mem_cons.mp hx with h | h
        · rw [h]
          intro hm
          rcases List.mem_cons.mp hm with h' | h'
          · exact hc h'.symm
          · exact ih seg (by simp) h'
        · exact ih x (by simp [h])

theorem singleName_iff (n : List Char) :
    singleName n = true ↔ goodSeg n = true ∧ '/' ∉ n := by
  simp [singleName]

theorem foldl_single (st : List (List Char)) (n : List Char) (h : singleName n = true) :
    (splitSep n).foldl (cleanStep true) st = n :: st := by
  rw [singleName_iff] at h
  rw [splitSep_of_not_mem n h.2]
  simp [cleanStep_good true st n h.1]

theorem foldl_mount (st : List (List Char)) (m : String) (h : validMount m = true) :
    (splitSep m.data).foldl (cleanStep true) st = mountName m :: st := by
  unfold validMount at h
  by_cases hl : m.data.getLast? = some '/'
  · have hm : mountName m = m.data.dropLast := by simp [mountName, hl]
    have hd : m.data = m.data.dropLast ++ ['/'] :=
      (List.dropLast_append_getLast? '/' (by rw [hl]; rfl)).symm
    rw [hm] at h ⊢
    rw [hd, splitSep_append_sep, List.foldl_append, List.dropLast_append_cons,
      List.dropLast_single, List.append_nil, foldl_single st _ h]
    simp [splitSep, cleanStep]
  · have hm : mountName m = m.data := by simp [mountName, hl]
    rw [hm] at h ⊢
    exact foldl_single st _ h

theorem goodSeg_of_table (k seg : String) (h : seg ∈ (backendTable k).1) :
    ∀ x ∈ splitSep seg.data, goodSeg x = true := by
  have hmem : seg = "map/teams" ∨ seg = "map/users" ∨ seg = "groups" ∨ seg = "users" := by
    unfold backendTable at h
    split at h
    · simp at h; tauto
    · split at h
      · simp at h; tauto
      · split at h
        · simp at h; tauto
        · split at h
          · simp at h; tauto
          · simp at h
  rcases hmem with rfl | rfl | rfl | rfl <;> decide

theorem path_eq_pathOf (first m seg n : String) (f : List Char) (hf : first.data = '/' :: f)
    (hfirst : ∀ st, (splitSep first.data).foldl (cleanStep true) st = authSeg :: st)
    (hm : validMount m = true) (hseg : ∀ x ∈ splitSep seg.data, goodSeg x = true)
    (hn : singleName n.data = true) :
    filepathJoin [first, m, seg, n] = pathOf (mountName m) seg n.data := by
  rw [filepathJoin_rooted first _ f hf]
  simp only [List.map_cons, List.map_nil, List.foldl_cons, List.foldl_nil]
  rw [hfirst, foldl_mount _ m hm, foldl_cleanStep_good _ _ _ hseg, foldl_single _ _ hn]
  simp [pathOf]

theorem dir_eq (m seg : String)
    (hm : validMount m = true) (hseg : ∀ x ∈ splitSep seg.data, goodSeg x = true) :
    filepathJoin ["/auth", m, seg]
      = String.mk ('/' :: joinSep (authSeg :: mountName m :: splitSep seg.data)) := by
  rw [filepathJoin_rooted "/auth" _ authSeg rfl]
  simp only [List.map_cons, List.map_nil, List.foldl_cons, List.foldl_nil]
  have h0 : (splitSep "/auth".data).foldl (cleanStep true) [] = [authSeg] := by decide
  rw [h0, foldl_mount _ m hm, foldl_cleanStep_good _ _ _ hseg]
  simp

theorem pathOf_data (a : List Char) (seg : String) (n : List Char) :
    (pathOf a seg n).data
      = (String.mk ('/' :: joinSep (authSeg :: a :: splitSep seg.data))).data ++ '/' :: n := by
  simp only [pathOf]
  have h : authSeg :: a :: (splitSep seg.data ++ [n]) = (authSeg :: a :: splitSep seg.data) ++ [n] := by
    simp
  rw [h, joinSep_append _ _ (by simp) (by simp)]
  simp [joinSep]

theorem entPath_eq (m seg n : String)
    (hm : validMount m = true) (hseg : ∀ x ∈ splitSep seg.data, goodSeg x = true)
    (hn : singleName n.data = true) :
    filepathJoin ["/auth/", m, seg, n] = pathOf (mountName m) seg n.data :=
  path_eq_pathOf "/auth/" m seg n _ rfl
    (by intro st; have : splitSep "/auth/".data = [[], authSeg, []] := by decide
        rw [this]; simp [cleanStep, authSeg]) hm hseg hn

theorem Key_eq_pathOf (e : entry)
    (hm : validMount e.AuthMount = true)
    (hseg : ∀ x ∈ splitSep e.EntityGroup.data, goodSeg x = true)
    (hn : singleName e.EntityName.data = true) :
    e.Key = pathOf (mountName e.AuthMount) e.EntityGroup e.EntityName.data :=
  path_eq_pathOf "/auth" e.AuthMount e.EntityGroup e.EntityName _ rfl
    (by intro st; have : splitSep "/auth".data = [[], authSeg] := by decide
        rw [this]; simp [cleanStep, authSeg]) hm hseg hn

/-- Paths of this shape determine the mount name. -/
theorem pathOf_inj (a a' : List Char) (seg seg' : String) (n n' : List Char)
    (ha : singleName a = true) (ha' : singleName a' = true)
    (hn : singleName n = true) (hn' : singleName n' = true)
    (h : pathOf a seg n = pathOf a' seg' n') :
    a = a' ∧ splitSep seg.data = splitSep seg'.data ∧ n = n' := by
  have h := congrArg String.data h
  simp only [pathOf, List.cons.injEq, true_and] at h
  have hfree : ∀ (b : List Char) (sg : String) (z : List Char), singleName b = true →
      singleName z = true → ∀ x ∈ authSeg :: b :: (splitSep sg.data ++ [z]), '/' ∉ x := by
    intro b sg z hb hz x hx
    simp only [List.mem_cons, List.mem_append, List.mem_singleton, List.not_mem_nil,
      or_false] at hx
    rcases hx with rfl | rfl | hx | rfl
    · decide
    · exact ((singleName_iff _).mp hb).2
    · exact not_mem_of_mem_splitSep _ x hx
    · exact ((singleName_iff _).mp hz).2
  have h1 := splitSep_joinSep _ (by simp) (hfree a seg n ha hn)
  have h2 := splitSep_joinSep _ (by simp) (hfree a' seg' n' ha' hn')
  rw [h, h2] at h1
  simp only [List.cons.injEq, true_and] at h1
  obtain ⟨h3, h4⟩ := h1
  have h5 := List.append_inj' h4.symm rfl
  exact ⟨h3.symm, h5.1, by simpa using h5.2⟩

/-! ## The storing server -/

theorem dropLeading_eq_some (p l r : List Char) : dropLeading p l = some r ↔ l = p ++ r := by
  induction p generalizing l with
  | nil => simp [dropLeading, eq_comm]
  | cons a p ih =>
    cases l with
    | nil => simp [dropLeading]
    | cons b l =>
      by_cases hab : a = b
      · subst hab
        simp [dropLeading, ih]
      · simp only [dropLeading, hab, if_false, List.cons_append, List.cons.injEq]
        constructor
        · intro h; cases h
        · intro h; exact absurd h.1.symm hab

theorem childName_eq_some (dir path n : String) :
    childName dir path = some n
      ↔ singleName n.data = true ∧ path.data = dir.data ++ '/' :: n.data := by
  unfold childName
  cases hd : dropLeading (dir.data ++ ['/']) path.data with
  | none =>
    constructor
    · intro h; cases h
    · rintro ⟨_, h⟩
      have := (dropLeading_eq_some (dir.data ++ ['/']) path.data n.data).mpr (by simp [h])
      rw [hd] at this
      cases this
  | some r =>
    have hr := (dropLeading_eq_some _ _ _).mp hd
    simp only [List.append_assoc, List.singleton_append] at hr
    by_cases hs : singleName r = true
    · simp only [hs, if_true, Option.some.injEq]
      constructor
      · intro h
        rw [← h]
        exact ⟨hs, hr⟩
      · rintro ⟨_, h⟩
        rw [hr] at h
        have := List.append_cancel_left h
        simp only [List.cons.injEq, true_and] at this
        exact String.ext this
    · simp only [hs]
      constructor
      · intro h; cases h
      · rintro ⟨h1, h⟩
        rw [hr] at h
        have := List.append_cancel_left h
        simp only [List.cons.injEq, true_and] at this
        rw [this] at hs
        exact absurd h1 hs

theorem lookup_isSome_iff (l : List (String × SecretData)) (q : String) :
    (l.lookup q).isSome = true ↔ ∃ kv ∈ l, kv.1 = q := by
  induction l with
  | nil => simp [List.lookup]
  | cons kv rest ih =>
    obtain ⟨k, v⟩ := kv
    by_cases hk : q = k
    · subst hk
      simp [List.lookup]
    · have : (q == k) = false := by simpa using hk
      simp only [List.lookup, this, ih, List.mem_cons, exists_eq_or_imp]
      constructor
      · intro h; exact Or.inr h
      · rintro (h | h)
        · exact absurd h.symm hk
        · exact h

theorem kvClient_List (s : Server) (path : String) :
    kvClient.List s path
      = match s.secrets.filterMap (fun kv => childName path kv.1) with
        | [] => Except.ok none
        | n :: ns => Except.ok (some [("keys", Value.slice ((n :: ns).map Elem.str))]) := rfl

theorem listingOk_kv (s : Server) (m seg : String) : listingOk kvClient s m seg = true := by
  unfold listingOk
  rw [kvClient_List]
  cases s.secrets.filterMap (fun kv => childName (filepathJoin ["/auth", m, seg]) kv.1) with
  | nil => rfl
  | cons n ns => simp [keysOf, SecretData.index, List.lookup]

theorem listedNames_kv (s : Server) (m seg : String) :
    listedNames kvClient s m seg
      = (s.secrets.filterMap fun kv => childName (filepathJoin ["/auth", m, seg]) kv.1).map
          Elem.str := by
  unfold listedNames
  rw [kvClient_List]
  cases s.secrets.filterMap (fun kv => childName (filepathJoin ["/auth", m, seg]) kv.1) with
  | nil => rfl
  | cons n ns => simp [keysOf, SecretData.index, List.lookup]

theorem policiesAt_kv (s : Server) (m seg dataKey n : String) (np : String × String) :
    policiesAt kvClient s m seg dataKey (Elem.str n) = some np
      ↔ ∃ data, s.secrets.lookup (filepathJoin ["/auth/", m, seg, n]) = some data
          ∧ normalisePolicies (data.index dataKey) = Except.ok np.2 ∧ np.1 = n := by
  unfold policiesAt kvClient
  simp only
  cases hl : s.secrets.lookup (filepathJoin ["/auth/", m, seg, n]) with
  | none => simp
  | some data =>
    cases hn : normalisePolicies (data.index dataKey) with
    | error a => simp [hn]
    | ok pol =>
      obtain ⟨a, b⟩ := np
      simp only [hn, Option.some.injEq, Prod.mk.injEq, exists_eq_left', Except.ok.injEq]
      tauto

theorem mountsOk_valid (auths : List (String × String)) (h : mountsOk auths = true)
    (m k : String) (hmk : (m, k) ∈ auths) (hk : supportedType k = true) :
    validMount m = true := by
  unfold mountsOk at h
  have := List.all_eq_true.mp h (m, k) hmk
  simp only [hk, Bool.not_true, Bool.false_or, Bool.and_eq_true] at this
  exact this.1

theorem mountsOk_kind (auths : List (String × String)) (h : mountsOk auths = true)
    (m k m' k' : String) (hmk : (m, k) ∈ auths) (hk : supportedType k = true)
    (hmk' : (m', k') ∈ auths) (hk' : supportedType k' = true)
    (hname : mountName m = mountName m') : k = k' := by
  unfold mountsOk at h
  have := List.all_eq_true.mp h (m, k) hmk
  simp only [hk, Bool.not_true, Bool.false_or, Bool.and_eq_true] at this
  have := List.all_eq_true.mp this.2 (m', k') hmk'
  simp only [hk', Bool.not_true, Bool.false_or, decide_eq_true_eq] at this
  exact this hname

/-! ## Discovery on the storing server -/

theorem supportedType_iff (k : String) :
    supportedType k = true ↔ (k = "github" ∨ k = "okta" ∨ k = "ldap" ∨ k = "radius") := by
  simp [supportedType]
  tauto

theorem listed_kv (s : Server) (m k seg : String) (hm : validMount m = true)
    (hseg : seg ∈ (backendTable k).1) (el : Elem) :
    el ∈ listedNames kvClient s m seg
      ↔ ∃ n : String, el = Elem.str n ∧ singleName n.data = true
          ∧ (s.secrets.lookup (pathOf (mountName m) seg n.data)).isSome = true := by
  rw [listedNames_kv, dir_eq m seg hm (goodSeg_of_table k seg hseg)]
  simp only [List.mem_map, List.mem_filterMap, childName_eq_some, lookup_isSome_iff]
  constructor
  · rintro ⟨n, ⟨kv, hkv, hs, hd⟩, rfl⟩
    refine ⟨n, rfl, hs, kv, hkv, ?_⟩
    apply String.ext
    rw [hd, pathOf_data]
  · rintro ⟨n, rfl, hs, kv, hkv, hp⟩
    refine ⟨n, ⟨kv, hkv, hs, ?_⟩, rfl⟩
    rw [hp, pathOf_data]

theorem policiesAt_listed_kv (s : Server) (m k seg n : String) (hm : validMount m = true)
    (hseg : seg ∈ (backendTable k).1) (hn : singleName n.data = true) (np : String × String) :
    policiesAt kvClient s m seg (backendTable k).2 (Elem.str n) = some np
      ↔ ∃ data, s.secrets.lookup (pathOf (mountName m) seg n.data) = some data
          ∧ normalisePolicies (data.index (backendTable k).2) = Except.ok np.2 ∧ np.1 = n := by
  rw [policiesAt_kv, entPath_eq m seg n hm (goodSeg_of_table k seg hseg) hn]

theorem observed_mem_kv (s : Server) (hm : mountsOk s.auths = true) (o : entry) :
    o ∈ observedSpec kvClient s
      ↔ ∃ m k seg n data pol, Stored s m k seg n data
          ∧ normalisePolicies (data.index (backendTable k).2) = Except.ok pol
          ∧ o = ⟨n, seg, k, m, pol⟩ := by
  have he : enabledBackends kvClient s = s.auths := rfl
  simp only [observedSpec, he, List.mem_flatMap]
  constructor
  · rintro ⟨⟨m, k⟩, hmk, ho⟩
    unfold observedOfBackend at ho
    split at ho
    · rename_i hk
      have hk' := (supportedType_iff k).mpr hk
      have hv := mountsOk_valid s.auths hm m k hmk hk'
      simp only [List.mem_flatMap, List.mem_filterMap, Option.map_eq_some'] at ho
      obtain ⟨seg, hseg, el, hel, np, hp, rfl⟩ := ho
      obtain ⟨n, rfl, hn, _⟩ := (listed_kv s m k seg hv hseg el).mp hel
      obtain ⟨data, hl, hnorm, hname⟩ := (policiesAt_listed_kv s m k seg n hv hseg hn np).mp hp
      exact ⟨m, k, seg, n, data, np.2, ⟨hmk, hk', hseg, hn, hl⟩, hnorm, by rw [hname]⟩
    · simp at ho
  · rintro ⟨m, k, seg, n, data, pol, ⟨hmk, hk', hseg, hn, hl⟩, hnorm, rfl⟩
    have hv := mountsOk_valid s.auths hm m k hmk hk'
    refine ⟨(m, k), hmk, ?_⟩
    unfold observedOfBackend
    rw [if_pos ((supportedType_iff k).mp hk')]
    simp only [List.mem_flatMap, List.mem_filterMap, Option.map_eq_some']
    refine ⟨seg, hseg, Elem.str n, ?_, (n, pol), ?_, rfl⟩
    · exact (listed_kv s m k seg hv hseg _).mpr ⟨n, rfl, hn, by rw [hl]; rfl⟩
    · exact (policiesAt_listed_kv s m k seg n hv hseg hn (n, pol)).mpr ⟨data, hl, hnorm, rfl⟩

theorem discoveryOk_kv (s : Server) (hm : mountsOk s.auths = true) :
    discoveryOk kvClient s = true
      ↔ ∀ m k seg n data, Stored s m k seg n data →
          ∃ pol, normalisePolicies (data.index (backendTable k).2) = Except.ok pol := by
  have he : enabledBackends kvClient s = s.auths := rfl
  have hla : kvClient.ListAuth s = Except.ok (some s.auths) := rfl
  simp only [discoveryOk, hla, he, Bool.true_and, List.all_eq_true, Bool.or_eq_true,
    Bool.not_eq_true', Bool.and_eq_true, listingOk_kv, true_and]
  constructor
  · intro h m k seg n data ⟨hmk, hk', hseg, hn, hl⟩
    have hv := mountsOk_valid s.auths hm m k hmk hk'
    rcases h (m, k) hmk with h1 | h1
    · simp only at h1
      rw [hk'] at h1
      cases h1
    · have h2 := h1 seg hseg (Elem.str n)
        ((listed_kv s m k seg hv hseg _).mpr ⟨n, rfl, hn, by rw [hl]; rfl⟩)
      simp only at h2
      obtain ⟨np, hnp⟩ := Option.isSome_iff_exists.mp h2
      obtain ⟨data', hl', hnorm, _⟩ := (policiesAt_listed_kv s m k seg n hv hseg hn np).mp hnp
      rw [hl] at hl'
      injection hl' with hl'
      subst hl'
      exact ⟨np.2, hnorm⟩
  · intro h mk hmk
    obtain ⟨m, k⟩ := mk
    by_cases hk' : supportedType k = true
    · right
      have hv := mountsOk_valid s.auths hm m k hmk hk'
      intro seg hseg el hel
      obtain ⟨n, rfl, hn, hsome⟩ := (listed_kv s m k seg hv hseg el).mp hel
      obtain ⟨data, hl⟩ := Option.isSome_iff_exists.mp hsome
      obtain ⟨pol, hnorm⟩ := h m k seg n data ⟨hmk, hk', hseg, hn, hl⟩
      exact Option.isSome_iff_exists.mpr
        ⟨(n, pol), (policiesAt_listed_kv s m k seg n hv hseg hn (n, pol)).mpr ⟨data, hl, hnorm, rfl⟩⟩
    · left
      simpa using hk'

/-! ## The storing server after a run -/

theorem lookup_filter_ne (l : List (String × SecretData)) (p q : String) :
    (l.filter fun kv => kv.1 ≠ p).lookup q = if q = p then none else l.lookup q := by
  induction l with
  | nil => simp [List.lookup]
  | cons kv rest ih =>
    obtain ⟨k, v⟩ := kv
    rw [List.filter_cons]
    by_cases hk : k = p
    · have h1 : decide ((k, v).1 ≠ p) = false := by simp [hk]
      rw [h1]
      simp only [Bool.false_eq_true, if_false]
      rw [ih]
      by_cases hq : q = p
      · simp [hq]
      · have : (q == k) = false := by rw [hk]; simpa using hq
        simp [hq, List.lookup, this]
    · have h1 : decide ((k, v).1 ≠ p) = true := by simp [hk]
      rw [h1]
      simp only [if_true]
      by_cases hq : q = k
      · have hqp : q ≠ p := by rw [hq]; exact hk
        subst hq
        simp [List.lookup, hqp]
      · have : (q == k) = false := by simpa using hq
        simp only [List.lookup, this]
        exact ih

theorem lookup_kvWrite (s : Server) (w : entry) (q : String) :
    (kvWrite s w).secrets.lookup q
      = if q = w.Key then some (writeData w) else s.secrets.lookup q := by
  simp only [kvWrite, kvClient]
  by_cases hq : q = w.Key
  · subst hq
    simp [List.lookup]
  · have : (q == w.Key) = false := by simpa using hq
    simp only [List.lookup, this, hq, if_false]
    rw [lookup_filter_ne]
    simp [hq]

theorem lookup_kvDelete (s : Server) (d : entry) (q : String) :
    (kvDelete s d).secrets.lookup q = if q = d.Key then none else s.secrets.lookup q := by
  simp only [kvDelete, kvClient]
  exact lookup_filter_ne _ _ _

theorem auths_foldl_kvWrite (W : List entry) (s : Server) :
    (W.foldl kvWrite s).auths = s.auths := by
  induction W generalizing s with
  | nil => rfl
  | cons w rest ih => rw [List.foldl_cons, ih]; rfl

theorem auths_foldl_kvDelete (D : List entry) (s : Server) :
    (D.foldl kvDelete s).auths = s.auths := by
  induction D generalizing s with
  | nil => rfl
  | cons w rest ih => rw [List.foldl_cons, ih]; rfl

theorem lookup_foldl_kvWrite_of_not_mem (W : List entry) (s : Server) (q : String)
    (h : ∀ w ∈ W, w.Key ≠ q) :
    (W.foldl kvWrite s).secrets.lookup q = s.secrets.lookup q := by
  induction W generalizing s with
  | nil => rfl
  | cons w rest ih =>
    rw [List.foldl_cons, ih _ (fun w' hw' => h w' (by simp [hw'])), lookup_kvWrite]
    have : q ≠ w.Key := fun e => h w (by simp) e.symm
    simp [this]

theorem lookup_foldl_kvWrite_of_mem (W : List entry) (s : Server) (q : String)
    (h : ∃ w ∈ W, w.Key = q) :
    ∃ w ∈ W, w.Key = q ∧ (W.foldl kvWrite s).secrets.lookup q = some (writeData w) := by
  induction W generalizing s with
  | nil => simp at h
  | cons w rest ih =>
    by_cases hr : ∃ w' ∈ rest, w'.Key = q
    · obtain ⟨w', hw', hk, hl⟩ := ih (kvWrite s w) hr
      exact ⟨w', by simp [hw'], hk, hl⟩
    · have hw : w.Key = q := by
        obtain ⟨w', hw', hk⟩ := h
        rcases List.mem_cons.mp hw' with e | e
        · rw [← e]; exact hk
        · exact absurd ⟨w', e, hk⟩ hr
      refine ⟨w, by simp, hw, ?_⟩
      rw [List.foldl_cons, lookup_foldl_kvWrite_of_not_mem rest _ q
        (fun w' hw' e => hr ⟨w', hw', e⟩), lookup_kvWrite]
      simp [hw]

theorem lookup_foldl_kvDelete_of_not_mem (D : List entry) (s : Server) (q : String)
    (h : ∀ d ∈ D, d.Key ≠ q) :
    (D.foldl kvDelete s).secrets.lookup q = s.secrets.lookup q := by
  induction D generalizing s with
  | nil => rfl
  | cons d rest ih =>
    rw [List.foldl_cons, ih _ (fun d' hd' => h d' (by simp [hd'])), lookup_kvDelete]
    have : q ≠ d.Key := fun e => h d (by simp) e.symm
    simp [this]

theorem lookup_foldl_kvDelete_none (D : List entry) (s : Server) (q : String)
    (h : s.secrets.lookup q = none) : (D.foldl kvDelete s).secrets.lookup q = none := by
  induction D generalizing s with
  | nil => exact h
  | cons d rest ih =>
    rw [List.foldl_cons]
    apply ih
    rw [lookup_kvDelete, h]
    simp

theorem lookup_foldl_kvDelete_of_mem (D : List entry) (s : Server) (q : String)
    (h : ∃ d ∈ D, d.Key = q) : (D.foldl kvDelete s).secrets.lookup q = none := by
  induction D generalizing s with
  | nil => simp at h
  | cons d rest ih =>
    rw [List.foldl_cons]
    by_cases hd : d.Key = q
    · apply lookup_foldl_kvDelete_none
      rw [lookup_kvDelete]
      simp [hd]
    · apply ih
      obtain ⟨d', hd', hk⟩ := h
      rcases List.mem_cons.mp hd' with e | e
      · rw [e] at hk; exact absurd hk hd
      · exact ⟨d', e, hk⟩

theorem forEach_write_kv (W : List entry) (s : Server) :
    forEach (writeEntiry kvClient) s W = ⟨W.foldl kvWrite s, okEvents (W.map writeCall), none⟩ := by
  induction W generalizing s with
  | nil => rfl
  | cons w rest ih =>
    have h1 : writeEntiry kvClient s w = ⟨kvWrite s w, [⟨writeCall w, false⟩], none⟩ := rfl
    simp only [forEach, h1, ih, List.foldl_cons]
    rfl

theorem forEach_delete_kv (D : List entry) (s : Server) :
    forEach (deleteEntity kvClient) s D
      = ⟨D.foldl kvDelete s, okEvents (D.map deleteCall), none⟩ := by
  induction D generalizing s with
  | nil => rfl
  | cons w rest ih =>
    have h1 : deleteEntity kvClient s w = ⟨kvDelete s w, [⟨deleteCall w, false⟩], none⟩ := rfl
    simp only [forEach, h1, ih, List.foldl_cons]
    rfl

/-- A run in apply mode on the storing server, once discovery has succeeded: it ends normally
in the state reached by the writes followed by the deletes. -/
theorem Apply_kv (d : Deps) (entries obs : List entry) (bytes : String) (s : Server)
    (hU : d.Unmarshal bytes = Except.ok entries)
    (hD : (discover kvClient s).2 = Except.ok obs) :
    (Apply d kvClient bytes false s).status = none
    ∧ (Apply d kvClient bytes false s).state
        = (d.DiffItems entries obs).2.foldl kvDelete ((d.DiffItems entries obs).1.foldl kvWrite s) := by
  rw [Apply_of_discovered d kvClient bytes false s entries obs hU hD]
  simp only [applyOrReport, Bool.false_eq_true, if_false, forEach_write_kv,
    forEach_delete_kv]
  exact ⟨trivial, trivial⟩

/-! ## Idempotence on the storing server -/

theorem Equals_ofEntry (e o : entry) :
    e.Equals (Iface.ofEntry o) = true ↔ e.Key = o.Key ∧ e.Policies = o.Policies := by
  simp [entry.Equals, entry.Key]

theorem Equals_eq_false (e o : entry) :
    e.Equals (Iface.ofEntry o) = false ↔ ¬ (e.Key = o.Key ∧ e.Policies = o.Policies) := by
  rw [← Equals_ofEntry]
  simp

theorem DiffItems_contract : DiffContract DiffItems := by
  intro declared observed
  simp [DiffItems, List.mem_filter]

theorem mem_toBeWritten (diff : List entry → List entry → List entry × List entry)
    (hd : DiffContract diff) (declared observed : List entry) (w : entry) :
    w ∈ (diff declared observed).1
      ↔ w ∈ declared ∧ ∀ o ∈ observed, ¬ (w.Key = o.Key ∧ w.Policies = o.Policies) := by
  rw [(hd declared observed).1 w]
  simp only [Equals_eq_false]

theorem mem_toBeDeleted (diff : List entry → List entry → List entry × List entry)
    (hd : DiffContract diff) (declared observed : List entry) (x : entry) :
    x ∈ (diff declared observed).2
      ↔ x ∈ observed ∧ ∀ e ∈ declared, ¬ (x.Key = e.Key ∧ x.Policies = e.Policies) := by
  rw [(hd declared observed).2 x]
  simp only [Equals_eq_false]

theorem discoverable_iff (auths : List (String × String)) (e : entry) :
    discoverable auths e = true
      ↔ supportedType e.AuthType = true ∧ validMount e.AuthMount = true
        ∧ e.EntityGroup ∈ (backendTable e.AuthType).1
        ∧ singleName e.EntityName.data = true
        ∧ ∃ m, (m, e.AuthType) ∈ auths ∧ mountName m = mountName e.AuthMount := by
  simp only [discoverable, Bool.and_eq_true, decide_eq_true_eq, List.any_eq_true, beq_iff_eq]
  constructor
  · rintro ⟨⟨⟨⟨h1, h2⟩, h3⟩, h4⟩, ⟨m, k⟩, hmk, hn, hk⟩
    simp only at hn hk
    subst hk
    exact ⟨h1, h2, h3, h4, m, hmk, hn⟩
  · rintro ⟨h1, h2, h3, h4, m, hmk, hn⟩
    exact ⟨⟨⟨⟨h1, h2⟩, h3⟩, h4⟩, (m, e.AuthType), hmk, hn, rfl⟩

theorem Key_of_discoverable (auths : List (String × String)) (e : entry)
    (h : discoverable auths e = true) :
    e.Key = pathOf (mountName e.AuthMount) e.EntityGroup e.EntityName.data := by
  obtain ⟨_, h2, h3, h4, _⟩ := (discoverable_iff auths e).mp h
  exact Key_eq_pathOf e h2 (goodSeg_of_table _ _ h3) h4

theorem Key_of_stored (s : Server) (hm : mountsOk s.auths = true) (m k seg n : String)
    (data : SecretData) (pol : String) (h : Stored s m k seg n data) :
    (⟨n, seg, k, m, pol⟩ : entry).Key = pathOf (mountName m) seg n.data := by
  obtain ⟨hmk, hk, hseg, hn, _⟩ := h
  exact Key_eq_pathOf _ (mountsOk_valid s.auths hm m k hmk hk) (goodSeg_of_table _ _ hseg) hn

/-- A declared entry written at the path of a stored name belongs to the kind of the backend
the name is stored under. -/
theorem kind_of_same_path (auths : List (String × String)) (hm : mountsOk auths = true)
    (w : entry) (hw : discoverable auths w = true) (m k seg n : String)
    (hmk : (m, k) ∈ auths) (hk : supportedType k = true) (hn : singleName n.data = true)
    (hq : w.Key = pathOf (mountName m) seg n.data) : k = w.AuthType := by
  obtain ⟨h1, h2, h3, h4, m', hmk', hname⟩ := (discoverable_iff auths w).mp hw
  rw [Key_of_discoverable auths w hw] at hq
  have hv := mountsOk_valid auths hm m k hmk hk
  have := (pathOf_inj _ _ _ _ _ _ h2 hv h4 hn hq).1
  exact mountsOk_kind auths hm m k m' w.AuthType hmk hk hmk' h1 (by rw [hname, this])

/-- What the storing server holds at a path after the writes and the deletes of a run, when no
deleted key is a written key. -/
theorem lookup_after_run (W D : List entry) (s : Server) (q : String)
    (hq : ∀ d ∈ D, d.Key ≠ q) :
    (∃ w ∈ W, w.Key = q
        ∧ (D.foldl kvDelete (W.foldl kvWrite s)).secrets.lookup q = some (writeData w))
    ∨ ((∀ w ∈ W, w.Key ≠ q)
        ∧ (D.foldl kvDelete (W.foldl kvWrite s)).secrets.lookup q = s.secrets.lookup q) := by
  rw [lookup_foldl_kvDelete_of_not_mem D _ q hq]
  by_cases h : ∃ w ∈ W, w.Key = q
  · left
    obtain ⟨w, hw, hk, hl⟩ := lookup_foldl_kvWrite_of_mem W s q h
    exact ⟨w, hw, hk, hl⟩
  · right
    have h' : ∀ w ∈ W, w.Key ≠ q := fun w hw e => h ⟨w, hw, e⟩
    exact ⟨h', lookup_foldl_kvWrite_of_not_mem W s q h'⟩

theorem not_deleted_of_lookup (W D : List entry) (s : Server) (q : String) (data : SecretData)
    (h : (D.foldl kvDelete (W.foldl kvWrite s)).secrets.lookup q = some data) :
    ∀ d ∈ D, d.Key ≠ q := by
  intro d hd e
  rw [lookup_foldl_kvDelete_of_mem D _ q ⟨d, hd, e⟩] at h
  cases h

/-- What a stored name of the second run goes back to: a write of the first run, by an entry of
the backend's kind, or a payload that was there before and was not deleted. -/
theorem stored_after_run (W D : List entry) (s : Server)
    (hm : mountsOk s.auths = true)
    (hdecl : ∀ w ∈ W, discoverable s.auths w = true)
    (m k seg n : String) (data : SecretData)
    (h : Stored (D.foldl kvDelete (W.foldl kvWrite s)) m k seg n data) :
    (∃ w ∈ W, w.Key = pathOf (mountName m) seg n.data ∧ data = writeData w ∧ k = w.AuthType)
    ∨ (Stored s m k seg n data ∧ ∀ d ∈ D, d.Key ≠ pathOf (mountName m) seg n.data) := by
  obtain ⟨hmk, hk, hseg, hn, hl⟩ := h
  rw [auths_foldl_kvDelete, auths_foldl_kvWrite] at hmk
  have hnd := not_deleted_of_lookup _ _ s _ data hl
  rcases lookup_after_run W D s _ hnd with ⟨w, hw, hkey, hlw⟩ | ⟨_, hls⟩
  · left
    rw [hl] at hlw
    injection hlw with hlw
    exact ⟨w, hw, hkey, hlw, kind_of_same_path s.auths hm w (hdecl w hw) m k seg n hmk hk hn hkey⟩
  · right
    rw [hl] at hls
    exact ⟨⟨hmk, hk, hseg, hn, hls.symm⟩, hnd⟩

theorem mountsOk_iff (auths : List (String × String)) :
    mountsOk auths = true
      ↔ ∀ mk ∈ auths, supportedType mk.2 = true →
          validMount mk.1 = true ∧ ∀ mk' ∈ auths, supportedType mk'.2 = true →
            mountName mk.1 = mountName mk'.1 → mk.2 = mk'.2 := by
  simp only [mountsOk, List.all_eq_true, Bool.or_eq_true, Bool.not_eq_true', Bool.and_eq_true,
    decide_eq_true_eq]
  constructor
  · intro h mk hmk hs
    rcases h mk hmk with h1 | ⟨h1, h2⟩
    · rw [hs] at h1; cases h1
    · refine ⟨h1, fun mk' hmk' hs' => ?_⟩
      rcases h2 mk' hmk' with h3 | h3
      · rw [hs'] at h3; cases h3
      · exact h3
  · intro h mk hmk
    by_cases hs : supportedType mk.2 = true
    · right
      obtain ⟨h1, h2⟩ := h mk hmk hs
      refine ⟨h1, fun mk' hmk' => ?_⟩
      by_cases hs' : supportedType mk'.2 = true
      · exact Or.inr (h2 mk' hmk' hs')
      · exact Or.inl (by simpa using hs')
    · exact Or.inl (by simpa using hs)

theorem mountsOk_of_perm (a1 a2 : List (String × String)) (hp : a2.Perm a1)
    (h : mountsOk a1 = true) : mountsOk a2 = true := by
  rw [mountsOk_iff] at h ⊢
  intro mk hmk hs
  obtain ⟨h1, h2⟩ := h mk (hp.mem_iff.mp hmk) hs
  exact ⟨h1, fun mk' hmk' hs' => h2 mk' (hp.mem_iff.mp hmk') hs'⟩

/-- Claim C9, amended: on the storing server, with a diff primitive that meets the contract of
the specification, a second run in apply mode computes an empty diff, whatever the order in
which it iterates the backends,
when the first run's discovery succeeds, the backends of table kinds are mounted at single
path elements with one kind per name, every declared entry is discoverable, declared entries
with the same key have the same policies, and no observed entry has the key of a declared
entry with other policies. -/
theorem second_run_diff_empty (d : Deps) (entries obs : List entry) (bytes : String)
    (s s2 : Server)
    (hU : d.Unmarshal bytes = Except.ok entries)
    (hdiff : DiffContract d.DiffItems)
    (hobs : (discover kvClient s).2 = Except.ok obs)
    (hm : mountsOk s.auths = true)
    (hdecl : ∀ e ∈ entries, discoverable s.auths e = true)
    (hsame : ∀ e ∈ entries, ∀ e' ∈ entries, e.Key = e'.Key → e.Policies = e'.Policies)
    (hconf : ∀ e ∈ entries, ∀ o ∈ obs, o.Key = e.Key → o.Policies = e.Policies)
    (hsec : s2.secrets = (Apply d kvClient bytes false s).state.secrets)
    (hperm : s2.auths.Perm (Apply d kvClient bytes false s).state.auths) :
    (Apply d kvClient bytes false s).status = none
    ∧ diffOf d kvClient bytes s2 = some ([], []) := by
  obtain ⟨hst, hstate⟩ := Apply_kv d entries obs bytes s hU hobs
  refine ⟨hst, ?_⟩
  rw [hstate] at hsec hperm
  -- the first run's discovery
  have hok0 : discoveryOk kvClient s = true ∧ obs = observedSpec kvClient s := by
    rcases discover_spec kvClient s with ⟨h1, h2⟩ | ⟨_, ⟨a, h2⟩⟩
    · rw [hobs] at h2
      injection h2 with h2
      exact ⟨h1, h2⟩
    · rw [hobs] at h2
      cases h2
  obtain ⟨hok0, hobs0⟩ := hok0
  have hnorm0 := (discoveryOk_kv s hm).mp hok0
  rw [auths_foldl_kvDelete, auths_foldl_kvWrite] at hperm
  have hm1 : mountsOk s2.auths = true := mountsOk_of_perm _ _ hperm hm
  have hsup : ∀ e ∈ entries, (e.AuthType = "github" ∨ e.AuthType = "okta"
      ∨ e.AuthType = "ldap" ∨ e.AuthType = "radius") := fun e he =>
    (supportedType_iff _).mp ((discoverable_iff s.auths e).mp (hdecl e he)).1
  -- no deleted key is a declared key
  have hA1 : ∀ x ∈ (d.DiffItems entries obs).2, ∀ e ∈ entries, x.Key ≠ e.Key := by
    intro x hd e he hkey
    obtain ⟨hdo, hdn⟩ := (mem_toBeDeleted d.DiffItems hdiff entries obs x).mp hd
    exact hdn e he ⟨hkey, hconf e he x hdo hkey⟩
  have hstored : ∀ (m k seg n : String) (data : SecretData), Stored s2 m k seg n data →
      (∃ w ∈ (d.DiffItems entries obs).1, w.Key = pathOf (mountName m) seg n.data
          ∧ data = writeData w ∧ k = w.AuthType)
      ∨ (Stored s m k seg n data
          ∧ ∀ x ∈ (d.DiffItems entries obs).2, x.Key ≠ pathOf (mountName m) seg n.data) := by
    intro m k seg n data hS
    apply stored_after_run _ _ s hm
      (fun w hw => hdecl w ((mem_toBeWritten d.DiffItems hdiff entries obs w).mp hw).1)
      m k seg n data
    obtain ⟨hmk, hk, hseg, hn, hl⟩ := hS
    refine ⟨?_, hk, hseg, hn, by rw [← hsec]; exact hl⟩
    rw [auths_foldl_kvDelete, auths_foldl_kvWrite]
    exact hperm.mem_iff.mp hmk
  -- the second run's discovery succeeds
  have hok1 : discoveryOk kvClient s2 = true := by
    rw [discoveryOk_kv _ hm1]
    intro m k seg n data hS
    rcases hstored m k seg n data hS with ⟨w, hw, _, hdata, hk⟩ | ⟨hS0, _⟩
    · have hwe := ((mem_toBeWritten d.DiffItems hdiff entries obs w).mp hw).1
      exact ⟨w.Policies, by rw [hdata, hk]; exact normalise_writeData w (hsup w hwe)⟩
    · exact hnorm0 m k seg n data hS0
  have hobs1 : (discover kvClient s2).2 = Except.ok (observedSpec kvClient s2) := by
    rcases discover_spec kvClient s2 with ⟨_, h2⟩ | ⟨h1, _⟩
    · exact h2
    · rw [hok1] at h1
      cases h1
  -- every entry observed by the second run is declared
  have hdel2 : ∀ o ∈ observedSpec kvClient s2,
      ∃ e ∈ entries, o.Key = e.Key ∧ o.Policies = e.Policies := by
    intro o ho
    obtain ⟨m, k, seg, n, data, pol, hS, hnorm, rfl⟩ := (observed_mem_kv _ hm1 o).mp ho
    have hkey := Key_of_stored _ hm1 m k seg n data pol hS
    rcases hstored m k seg n data hS with ⟨w, hw, hwkey, hdata, hk⟩ | ⟨hS0, hnd⟩
    · have hwe := ((mem_toBeWritten d.DiffItems hdiff entries obs w).mp hw).1
      refine ⟨w, hwe, by rw [hkey, hwkey], ?_⟩
      have := normalise_writeData w (hsup w hwe)
      rw [hdata, hk, this] at hnorm
      injection hnorm with hnorm
      exact hnorm.symm
    · have ho0 : (⟨n, seg, k, m, pol⟩ : entry) ∈ obs := by
        rw [hobs0]
        exact (observed_mem_kv s hm _).mpr ⟨m, k, seg, n, data, pol, hS0, hnorm, rfl⟩
      by_contra hno
      have hdmem : (⟨n, seg, k, m, pol⟩ : entry) ∈ (d.DiffItems entries obs).2 :=
        (mem_toBeDeleted d.DiffItems hdiff entries obs _).mpr
          ⟨ho0, fun e he hc => hno ⟨e, he, hc⟩⟩
      exact hnd _ hdmem hkey
  -- every declared entry is observed by the second run
  have hwr2 : ∀ e ∈ entries, ∃ o ∈ observedSpec kvClient s2,
      e.Key = o.Key ∧ e.Policies = o.Policies := by
    intro e he
    obtain ⟨h1, h2, h3, h4, m, hmk, hname⟩ := (discoverable_iff s.auths e).mp (hdecl e he)
    have hekey := Key_of_discoverable s.auths e (hdecl e he)
    rw [← hname] at hekey
    have hnd : ∀ x ∈ (d.DiffItems entries obs).2,
        x.Key ≠ pathOf (mountName m) e.EntityGroup e.EntityName.data := by
      intro x hd hk
      exact hA1 x hd e he (by rw [hk, hekey])
    have hmk1 : (m, e.AuthType) ∈ s2.auths := hperm.mem_iff.mpr hmk
    have hokey : ∀ pol, (⟨e.EntityName, e.EntityGroup, e.AuthType, m, pol⟩ : entry).Key
        = pathOf (mountName m) e.EntityGroup e.EntityName.data := fun pol =>
      Key_eq_pathOf _ (mountsOk_valid s.auths hm m _ hmk h1) (goodSeg_of_table _ _ h3) h4
    rcases lookup_after_run (d.DiffItems entries obs).1 (d.DiffItems entries obs).2 s _ hnd with
      ⟨w, hw, hwkey, hlw⟩ | ⟨hnw, hls⟩
    · have hwe := ((mem_toBeWritten d.DiffItems hdiff entries obs w).mp hw).1
      have hk : e.AuthType = w.AuthType :=
        kind_of_same_path s.auths hm w (hdecl w hwe) m e.AuthType e.EntityGroup e.EntityName
          hmk h1 h4 hwkey
      have hpol : w.Policies = e.Policies := hsame w hwe e he (by rw [hwkey, hekey])
      refine ⟨⟨e.EntityName, e.EntityGroup, e.AuthType, m, e.Policies⟩, ?_, ?_, rfl⟩
      · refine (observed_mem_kv _ hm1 _).mpr
          ⟨m, e.AuthType, e.EntityGroup, e.EntityName, writeData w, e.Policies,
            ⟨hmk1, h1, h3, h4, by rw [hsec]; exact hlw⟩, ?_, rfl⟩
        rw [hk, ← hpol]
        exact normalise_writeData w (hsup w hwe)
      · rw [hokey, hekey]
    · -- not written: the first run observed an equal entry
      have hnotW : e ∉ (d.DiffItems entries obs).1 := fun hw => hnw e hw hekey
      have hex : ∃ o ∈ obs, e.Key = o.Key ∧ e.Policies = o.Policies := by
        by_contra hno
        exact hnotW ((mem_toBeWritten d.DiffItems hdiff entries obs e).mpr ⟨he, fun o ho hc => hno ⟨o, ho, hc⟩⟩)
      obtain ⟨o, ho, hoKey, _⟩ := hex
      rw [hobs0] at ho
      obtain ⟨m', k', seg', n', data', pol', hS', _, rfl⟩ := (observed_mem_kv s hm o).mp ho
      have hkey' := Key_of_stored s hm m' k' seg' n' data' pol' hS'
      have hl0 : s.secrets.lookup (pathOf (mountName m) e.EntityGroup e.EntityName.data)
          = some data' := by
        rw [← hekey, hoKey, hkey']
        exact hS'.2.2.2.2
      have hS0 : Stored s m e.AuthType e.EntityGroup e.EntityName data' :=
        ⟨hmk, h1, h3, h4, hl0⟩
      obtain ⟨pol, hnorm⟩ := hnorm0 _ _ _ _ _ hS0
      have hmem0 : (⟨e.EntityName, e.EntityGroup, e.AuthType, m, pol⟩ : entry) ∈ obs := by
        rw [hobs0]
        exact (observed_mem_kv s hm _).mpr ⟨_, _, _, _, data', pol, hS0, hnorm, rfl⟩
      have hpol : pol = e.Policies := hconf e he _ hmem0 (by rw [hokey, hekey])
      refine ⟨⟨e.EntityName, e.EntityGroup, e.AuthType, m, pol⟩, ?_, ?_, hpol.symm⟩
      · exact (observed_mem_kv _ hm1 _).mpr
          ⟨m, e.AuthType, e.EntityGroup, e.EntityName, data', pol,
            ⟨hmk1, h1, h3, h4, by rw [hsec, hls]; exact hl0⟩, hnorm, rfl⟩
      · rw [hokey, hekey]
  -- the second diff
  simp only [diffOf, hU, hobs1]
  congr 1
  apply Prod.ext
  · apply List.eq_nil_iff_forall_not_mem.mpr
    intro w hw
    obtain ⟨hwe, hn⟩ := (mem_toBeWritten d.DiffItems hdiff _ _ w).mp hw
    obtain ⟨o, ho, hc⟩ := hwr2 w hwe
    exact hn o ho hc
  · apply List.eq_nil_iff_forall_not_mem.mpr
    intro x hd
    obtain ⟨hdo, hn⟩ := (mem_toBeDeleted d.DiffItems hdiff _ _ x).mp hd
    obtain ⟨e, he, hc⟩ := hdel2 x hdo
    exact hn e he hc

theorem second_run_diff_empty_witness :
    (Apply (depsOf demoEntries) kvClient "" false demoServer).status = none
    ∧ diffOf (depsOf demoEntries) kvClient "" demoServerAfter = some ([], []) :=
  second_run_diff_empty (depsOf demoEntries) demoEntries
    [⟨"old-team", "map/teams", "github", "github/", "p0"⟩,
     ⟨"g1", "groups", "okta", "okta/", "a,b"⟩]
    "" demoServer demoServerAfter rfl DiffItems_contract rfl (by decide) (by decide) (by decide)
    (by decide) rfl (by decide)

/-- Claim C9 fails: an entry of a kind outside the table is written by the first run, every
call succeeding, and is not seen by the discovery of the second run, which therefore computes
the same non-empty `toBeWritten` again. -/
theorem second_run_rewrites_unknown_kind :
    (Apply (depsOf userpassEntries) kvClient "" false userpassServer).status = none
    ∧ (Apply (depsOf userpassEntries) kvClient "" false userpassServer).trace
        = [⟨Call.ListAuth, false⟩,
           ⟨Call.Write "/auth/userpass/users/bob" [("value", Value.str "default")], false⟩]
    ∧ (Apply (depsOf userpassEntries) kvClient "" false userpassServer).state
        = ⟨[("userpass/", "userpass")],
            [("/auth/userpass/users/bob", [("value", Value.str "default")])]⟩
    ∧ diffOf (depsOf userpassEntries) kvClient ""
        (Apply (depsOf userpassEntries) kvClient "" false userpassServer).state
        = some (userpassEntries, [])
    ∧ diffOf (depsOf userpassEntries) kvClient ""
        (Apply (depsOf userpassEntries) kvClient "" false userpassServer).state
        ≠ some ([], []) := by
  refine ⟨rfl, rfl, rfl, rfl, ?_⟩
  decide

/-- With the diff of the specification, an entry declared with other policies than observed is
written and then deleted at the same path by the first run, so the binding is gone and the
second run computes the same `toBeWritten` again. -/
theorem overwrite_is_deleted :
    mutations (Apply (depsOf oktaEntries) kvClient "" false oktaServer)
      = [⟨Call.Write "/auth/okta/groups/g1" [("policies", Value.str "p1")], false⟩,
         ⟨Call.Delete "/auth/okta/groups/g1", false⟩]
    ∧ (Apply (depsOf oktaEntries) kvClient "" false oktaServer).state = ⟨[("okta/", "okta")], []⟩
    ∧ diffOf (depsOf oktaEntries) kvClient ""
        (Apply (depsOf oktaEntries) kvClient "" false oktaServer).state
        = some (oktaEntries, []) :=
  ⟨rfl, rfl, rfl⟩

end PoliciesMapping
